import Mathlib

/-!
Verification of the 7z-to-zip archive conversion subsystem.

The source drives an external 7-Zip-compatible binary: it resolves a usable
binary, probes the input archive (parsing the listing output with regular
expressions), extracts it into a temporary working directory, lists the
extracted entries explicitly (keeping empty directories), repacks them as a
zip with a tiered argument-compatibility fallback, verifies the output, and
removes the temporary directory on every exit path.

JavaScript strings are modelled as `List Char`; each regular expression of
the source is modelled by an executable matcher over `List Char`.  Side
effects (subprocess invocations, filesystem operations) are modelled by an
explicit oracle (`ResolveEnv`, `ConvertEnv`) answering each external query,
and by a trace of emitted events (`Ev`).
-/

abbrev JStr := List Char

def chars (s : String) : JStr := s.data

/-- ASCII lower-casing, as used by JS `toLowerCase` / case-insensitive regex
flags on the ASCII patterns appearing in the source. -/
def asciiLower (c : Char) : Char :=
  if 'A' ≤ c ∧ c ≤ 'Z' then Char.ofNat (c.toNat + 32) else c

def lowerStr (s : JStr) : JStr := s.map asciiLower

/-- JS `\s` on the ASCII range. -/
def isWsChar (c : Char) : Bool :=
  c = ' ' || c = '\t' || c = '\n' || c = '\r' || c = '\x0b' || c = '\x0c'

def isDigitChar (c : Char) : Bool := '0' ≤ c && c ≤ '9'

/-- Strip a case-insensitive literal from the front of `s`; return the rest. -/
def stripCI : JStr → JStr → Option JStr
  | [], s => some s
  | _ :: _, [] => none
  | c :: k, x :: s => if asciiLower x = asciiLower c then stripCI k s else none

/-- Run the position matcher `f` at every suffix of `s` (regex scan). -/
def scanB (f : JStr → Bool) : JStr → Bool
  | [] => f []
  | x :: xs => f (x :: xs) || scanB f xs

/-- Case-insensitive substring test: models `/lit/i.test(s)` for a literal. -/
def containsCI (k s : JStr) : Bool := scanB (fun r => (stripCI k r).isSome) s

/-- Matcher at one position for `Encrypted\s*=\s*\+`. -/
def encPlusAt (r : JStr) : Bool :=
  match stripCI (chars "Encrypted") r with
  | none => false
  | some r1 =>
    match r1.dropWhile isWsChar with
    | '=' :: r2 =>
      match r2.dropWhile isWsChar with
      | '+' :: _ => true
      | _ => false
    | _ => false

/-- Matcher at one position for `key\s*\d+` (used for `Errors:` / `Warnings:`). -/
def countLineAt (key r : JStr) : Bool :=
  match stripCI key r with
  | none => false
  | some r1 =>
    match r1.dropWhile isWsChar with
    | d :: _ => isDigitChar d
    | [] => false

/-- Matcher at one position for `Type\s*=\s*7z`. -/
def type7zAt (r : JStr) : Bool :=
  match stripCI (chars "Type") r with
  | none => false
  | some r1 =>
    match r1.dropWhile isWsChar with
    | '=' :: r2 =>
      match stripCI (chars "7z") (r2.dropWhile isWsChar) with
      | some _ => true
      | none => false
    | _ => false

/-- `detectPassword` from the source: the disjunction of password/encryption
signatures tested (case-insensitively) against the combined output. -/
def detectPassword (s : JStr) : Bool :=
  containsCI (chars "Wrong password") s ||
  containsCI (chars "Enter password") s ||
  scanB encPlusAt s ||
  (containsCI (chars "Headers Error") s &&
    (containsCI (chars "password") s || containsCI (chars "encrypt") s)) ||
  (containsCI (chars "Data Error") s && containsCI (chars "password") s) ||
  containsCI (chars "Can not open encrypted archive") s

/-- The `looksInvalid` classification of `probe`:
`/Can not open file as archive/i` or (`/Errors:\s*\d+/i` or
`/Warnings:\s*\d+/i`) together with a non-zero exit code. -/
def looksInvalidOf (exitCode : Int) (s : JStr) : Bool :=
  containsCI (chars "Can not open file as archive") s ||
  ((scanB (countLineAt (chars "Errors:")) s ||
    scanB (countLineAt (chars "Warnings:")) s) && exitCode != 0)

/-- The `isType7z` classification of `probe`: `/Type\s*=\s*7z/i`. -/
def hasType7z (s : JStr) : Bool := scanB type7zAt s

/-- `isP7zip16` from the source: `/p7zip Version 16\.02/i`. -/
def isP7zip16 (out : JStr) : Bool := containsCI (chars "p7zip Version 16.02") out

/-- Numeric value of a digit string (JS `parseInt` on a `\d+` capture). -/
def digitsVal (ds : JStr) : Nat := ds.foldl (fun a c => a * 10 + (c.toNat - 48)) 0

/-- Parse one line against `^\s*key\s*=\s*(\d+)`; return the captured value. -/
def countCaptureAt (key line : JStr) : Option Nat :=
  match stripCI key (line.dropWhile isWsChar) with
  | none => none
  | some r1 =>
    match r1.dropWhile isWsChar with
    | '=' :: r2 =>
      let r3 := r2.dropWhile isWsChar
      let ds := r3.takeWhile isDigitChar
      if ds.isEmpty then none else some (digitsVal ds)
    | _ => none

def splitNl (s : JStr) : List JStr := s.splitOn '\n'

def firstSomeNat (f : JStr → Option Nat) : List JStr → Option Nat
  | [] => none
  | l :: ls =>
    match f l with
    | some n => some n
    | none => firstSomeNat f ls

/-- First match of `/^\s*key\s*=\s*(\d+)/im` over the combined output. -/
def parseCountKey (key s : JStr) : Option Nat :=
  firstSomeNat (countCaptureAt key) (splitNl s)

/-- Combined-output result of one subprocess run, as captured by `run`:
`all` is `stdout + "\n" + stderr`. -/
structure RunAns where
  exitCode : Int
  outS : JStr
  errS : JStr

def RunAns.all (r : RunAns) : JStr := r.outS ++ '\n' :: r.errS

/-- `ProbeResult` of the source's `probe`. -/
structure ProbeResult where
  exitCode : Int
  all : JStr
  isType7z : Bool
  looksInvalid : Bool
  isEncrypted : Bool
  fileCount : Option Nat
  folderCount : Option Nat

/-- The pure classification part of `probe`, applied to the listing run's
exit code and combined output. -/
def probeClassify (exitCode : Int) (all : JStr) : ProbeResult :=
  { exitCode := exitCode
    all := all
    isType7z := hasType7z all
    looksInvalid := looksInvalidOf exitCode all
    isEncrypted := detectPassword all
    fileCount := parseCountKey (chars "Files") all
    folderCount := parseCountKey (chars "Folders") all }

/-- `verifyZip`'s parse of the output listing (`Files` / `Folders` counts,
defaulting to zero). -/
def verifyCounts (all : JStr) : Nat × Nat :=
  ((parseCountKey (chars "Files") all).getD 0,
   (parseCountKey (chars "Folders") all).getD 0)

/-- Events emitted by the conversion: subprocess launches and filesystem
operations, in order. `tryCmdE` is a resolver version query (direct `execa`),
`runE` is an invocation of the `run` process-runner wrapper. -/
inductive Ev where
  | tryCmdE (bin : JStr)
  | runE (bin : JStr) (args : List JStr) (exitCode : Int)
  | mkdtempE (root : JStr)
  | mkdirE (p : JStr)
  | writeFileE (p : JStr)
  | rmrfE (p : JStr)
deriving DecidableEq

def Ev.isRun : Ev → Bool
  | .runE _ _ _ => true
  | _ => false

def Ev.isTry : Ev → Bool
  | .tryCmdE _ => true
  | _ => false

/-- An extraction command, `['x', ...]`, issued through the process runner. -/
def Ev.isExtract : Ev → Bool
  | .runE _ args _ => args.head? = some (chars "x")
  | _ => false

def Ev.isWrite : Ev → Bool
  | .writeFileE _ => true
  | _ => false

/-- The product-name signature accepted by `tryCmd`: `/(7-?Zip|p7zip)/i`. -/
def recognizes (out : JStr) : Bool :=
  containsCI (chars "7Zip") out || containsCI (chars "7-Zip") out ||
  containsCI (chars "p7zip") out

/-- Environment oracle for binary resolution.  `tryOut c` is the combined
output of invoking candidate `c` with `-version` (`none` models a launch
failure: file absent or exec-format error). -/
structure ResolveEnv where
  overrideBin : Option JStr
  binDirEnv : Option JStr
  cwd : JStr
  fsExists : JStr → Bool
  tryOut : JStr → Option JStr
  builtin : JStr
  platformArch : JStr

/-- `CANDIDATE_NAMES`: platform-arch-qualified names first, generic second. -/
def candidateNames (e : ResolveEnv) : List JStr :=
  [ chars "7zzs-" ++ e.platformArch, chars "7zzs",
    chars "7zz-" ++ e.platformArch, chars "7zz",
    chars "7z-" ++ e.platformArch, chars "7z",
    chars "7za-" ++ e.platformArch, chars "7za" ]

/-- `CANDIDATE_DIRS`: the explicit directory override (when set), then
`cwd/bin` and `cwd/vendors`. -/
def candidateDirs (e : ResolveEnv) : List JStr :=
  (match e.binDirEnv with
   | some d => [d]
   | none => []) ++ [e.cwd ++ chars "/bin", e.cwd ++ chars "/vendors"]

/-- `tryCmd` succeeds when the candidate launches and its combined output
matches the product-name signature. -/
def tryOk (e : ResolveEnv) (c : JStr) : Bool :=
  match e.tryOut c with
  | none => false
  | some o => recognizes o

/-- `resolveFromDirs` inner loop over candidate names within one directory:
only existing files are probed. -/
def searchNames (e : ResolveEnv) (dir : JStr) :
    List JStr → Option (JStr × JStr) × List Ev
  | [] => (none, [])
  | n :: ns =>
    let full := dir ++ '/' :: n
    if e.fsExists full then
      match e.tryOut full with
      | some o =>
        if recognizes o then (some (full, o), [Ev.tryCmdE full])
        else
          let rest := searchNames e dir ns
          (rest.1, Ev.tryCmdE full :: rest.2)
      | none =>
        let rest := searchNames e dir ns
        (rest.1, Ev.tryCmdE full :: rest.2)
    else searchNames e dir ns

/-- `resolveFromDirs` outer loop over candidate directories. -/
def searchDirs (e : ResolveEnv) : List JStr → Option (JStr × JStr) × List Ev
  | [] => (none, [])
  | d :: ds =>
    match searchNames e d (candidateNames e) with
    | (some r, tr) => (some r, tr)
    | (none, tr) =>
      let rest := searchDirs e ds
      (rest.1, tr ++ rest.2)

/-- `resolveFromPath`: the candidate names tried as bare commands. -/
def searchPath (e : ResolveEnv) : List JStr → Option (JStr × JStr) × List Ev
  | [] => (none, [])
  | n :: ns =>
    match e.tryOut n with
    | some o =>
      if recognizes o then (some (n, o), [Ev.tryCmdE n])
      else
        let rest := searchPath e ns
        (rest.1, Ev.tryCmdE n :: rest.2)
    | none =>
      let rest := searchPath e ns
      (rest.1, Ev.tryCmdE n :: rest.2)

/-- Tier 1 of `pick7zBinary`: the explicit `CONVERT_7Z_BIN` override,
validated by a version query. -/
def tryOverride (e : ResolveEnv) : Option (JStr × JStr) × List Ev :=
  match e.overrideBin with
  | none => (none, [])
  | some p =>
    match e.tryOut p with
    | some o => (if recognizes o then some (p, o) else none, [Ev.tryCmdE p])
    | none => (none, [Ev.tryCmdE p])

/-- `pick7zBinary`: explicit override, known directories, command search
path, then the embedded `7za` fallback, whose version output is kept
(`t.out || ''`) whether or not it answered recognizably. -/
def pick7zBinary (e : ResolveEnv) : (JStr × JStr) × List Ev :=
  let s1 := tryOverride e
  match s1.1 with
  | some r => (r, s1.2)
  | none =>
    let s2 := searchDirs e (candidateDirs e)
    match s2.1 with
    | some r => (r, s1.2 ++ s2.2)
    | none =>
      let s3 := searchPath e (candidateNames e)
      match s3.1 with
      | some r => (r, s1.2 ++ s2.2 ++ s3.2)
      | none =>
        ((e.builtin, (e.tryOut e.builtin).getD []),
         s1.2 ++ s2.2 ++ s3.2 ++ [Ev.tryCmdE e.builtin])

/-- The flattened tier-ordered candidate list whose members are validated by
a version query (the unconditional embedded fallback is not in it). -/
def validatedCandidates (e : ResolveEnv) : List JStr :=
  (match e.overrideBin with
   | some p => [p]
   | none => []) ++
  ((candidateDirs e).flatMap
    (fun d => ((candidateNames e).map (fun n => d ++ '/' :: n)).filter e.fsExists)) ++
  candidateNames e

/-- Spec-level rendering of resolution: the first candidate, in tier order,
that answers the version query recognizably; the embedded fallback (with its
raw output, empty on launch failure) when none does. -/
def specResolve (e : ResolveEnv) : JStr × JStr :=
  match (validatedCandidates e).find? (tryOk e) with
  | some c => (c, (e.tryOut c).getD [])
  | none => (e.builtin, (e.tryOut e.builtin).getD [])

/-- True when no candidate in any tier (embedded fallback included) answers
the version query recognizably. -/
def noCandidateAnswers (e : ResolveEnv) : Bool :=
  ((validatedCandidates e).all (fun c => !tryOk e c)) && !tryOk e e.builtin

mutual
/-- Extracted directory tree as read by `listAllRelativeEntries`'s walk:
a node is a plain file (anything `lstat` reports as non-directory) or a
directory with a named child list in filesystem read order. -/
inductive FsTree where
  | file : FsTree
  | dir : FsEnts → FsTree
inductive FsEnts where
  | nil : FsEnts
  | cons : JStr → FsTree → FsEnts → FsEnts
end

/-- `path.join(rel, n)` followed by `toPosix`, for the relative paths the
walk builds (the root call uses `rel = ''`). -/
def joinRel (rel n : JStr) : JStr := if rel = [] then n else rel ++ '/' :: n

mutual
/-- The walk of `listAllRelativeEntries`: every non-root directory is pushed
with a trailing separator before descending, every file as its plain
relative path. -/
def walkT (rel : JStr) : FsTree → List JStr
  | .file => [rel]
  | .dir cs => (if rel = [] then [] else [rel ++ ['/']]) ++ walkE rel cs
def walkE (rel : JStr) : FsEnts → List JStr
  | .nil => []
  | .cons n t rest => walkT (joinRel rel n) t ++ walkE rel rest
end

/-- `listAllRelativeEntries(rootDir)` over the modelled tree of `rootDir`. -/
def listAllRelativeEntries (t : FsTree) : List JStr := walkT [] t

def hasName : FsEnts → JStr → Bool
  | .nil, _ => false
  | .cons m _ rest, n => m = n || hasName rest n

/-- A usable child name: non-empty and separator-free. -/
def goodName (n : JStr) : Bool := !n.isEmpty && !n.contains '/'

mutual
/-- Well-formedness of a tree as produced by a real filesystem walk:
child names are non-empty, separator-free and distinct among siblings. -/
def wfT : FsTree → Bool
  | .file => true
  | .dir cs => wfE cs
def wfE : FsEnts → Bool
  | .nil => true
  | .cons n t rest => goodName n && !hasName rest n && wfT t && wfE rest
end

def lookupE : FsEnts → JStr → Option FsTree
  | .nil, _ => none
  | .cons m t rest, n => if m = n then some t else lookupE rest n

/-- Resolve a segment path inside the tree. -/
def nodeAt : FsTree → List JStr → Option FsTree
  | t, [] => some t
  | .file, _ :: _ => none
  | .dir cs, n :: p =>
    match lookupE cs n with
    | some t => nodeAt t p
    | none => none

def isDirNode : FsTree → Bool
  | .dir _ => true
  | .file => false

/-- POSIX join of a non-empty segment path. -/
def joinSegs : List JStr → JStr
  | [] => []
  | [n] => n
  | n :: p => n ++ '/' :: joinSegs p

/-- Conversion errors raised by `convert7zToZip` (one constructor per
distinct `throw` site). -/
inductive ConvErr where
  | emptyPath
  | fileNotFound (p : JStr)
  | badExtension
  | encrypted
  | invalidArchive
  | extractRemediation (raw : JStr)
  | extractFailed (msg : JStr)
  | packFailed (exitCode : Int) (raw : JStr)
  | outputMissing
deriving DecidableEq

/-- JS `a || b` on strings (empty string is falsy). -/
def jsOr (a b : JStr) : JStr := if a = [] then b else a

def intStr (i : Int) : JStr := (toString i).data

def natStr (n : Nat) : JStr := (toString n).data

/-- Node `path.basename` (no trailing-separator normalization, which the
conversion never encounters). -/
def basenameOf (p : JStr) : JStr := (p.reverse.takeWhile (fun c => c ≠ '/')).reverse

/-- Node `path.extname`: the suffix of the basename from its last dot, empty
when the only dot is the leading character. -/
def extnameOf (p : JStr) : JStr :=
  let b := basenameOf p
  let afterR := b.reverse.takeWhile (fun c => c ≠ '.')
  if afterR.length = b.length then []
  else if b.length - afterR.length - 1 = 0 then []
  else '.' :: afterR.reverse

/-- Node `path.dirname`. -/
def dirnameOf (p : JStr) : JStr :=
  let afterR := p.reverse.takeWhile (fun c => c ≠ '/')
  if afterR.length = p.length then chars "."
  else p.take (p.length - afterR.length - 1)

/-- Node `path.join` for the two-component uses in the source. -/
def joinPath (d f : JStr) : JStr :=
  if d = chars "." then f else if d = [] then f else d ++ '/' :: f

/-- Node `path.basename(p, ext)`: strips `ext` when it is a proper suffix of
the basename. -/
def basenameDrop (p ext : JStr) : JStr :=
  let b := basenameOf p
  if ext ≠ [] ∧ b ≠ ext ∧ ext.isSuffixOf b then b.take (b.length - ext.length) else b

/-- Output-path computation of `convert7zToZip` step 3: default to the input
path with `.zip`, or append `.zip` to a supplied path lacking it (the
extension test is case-insensitive). -/
def computeOutZip (filePath ext : JStr) (outputPath : Option JStr) : JStr :=
  let oz := outputPath.getD []
  if oz = [] then joinPath (dirnameOf filePath) (basenameDrop filePath ext ++ chars ".zip")
  else if lowerStr (extnameOf oz) = chars ".zip" then oz
  else oz ++ chars ".zip"

/-- Environment oracle for one conversion: resolver environment, the input
stat result, the answer of every process-runner invocation (keyed by its
argument list), the extracted tree, the output stat result, the `mkdtemp`
result and the logical CPU count. -/
structure ConvertEnv where
  renv : ResolveEnv
  statIsFile : Bool
  runRes : List JStr → RunAns
  extractTree : FsEnts
  outIsFile : Bool
  tmpRoot : JStr
  coreNum : Nat

/-- Signature triggering the second packing tier:
`/E_INVALIDARG|Unsupported switch|Incorrect command line/i`. -/
def sigArgUnsupported (all : JStr) : Bool :=
  containsCI (chars "E_INVALIDARG") all ||
  containsCI (chars "Unsupported switch") all ||
  containsCI (chars "Incorrect command line") all

/-- Signature triggering the third packing tier: an unsupported-switch
message citing the multi-thread flag. -/
def sigMmtUnsupported (all : JStr) : Bool :=
  containsCI (chars "Unsupported switch") all && containsCI (chars "-mmt") all

/-- The multi-thread switch, set to the logical CPU count. -/
def mmtArg (coreNum : Nat) : JStr := chars "-mmt=" ++ natStr coreNum

/-- Packing tier 1: zip mode, `-mx=7`, multi-threading, the three timestamp
switches, then the output path and the explicit entries. -/
def packArgs1 (coreNum : Nat) (outZip : JStr) (entries : List JStr) : List JStr :=
  [chars "a", chars "-tzip", chars "-mx=7", mmtArg coreNum] ++
    [chars "-mtm=on", chars "-mtc=on", chars "-mta=on"] ++ outZip :: entries

/-- Packing tier 2: tier 1 without the timestamp switches. -/
def packArgs2 (coreNum : Nat) (outZip : JStr) (entries : List JStr) : List JStr :=
  [chars "a", chars "-tzip", chars "-mx=7", mmtArg coreNum] ++ outZip :: entries

/-- Packing tier 3: maximum compression only. -/
def packArgs3 (outZip : JStr) (entries : List JStr) : List JStr :=
  [chars "a", chars "-tzip", chars "-mx=9"] ++ outZip :: entries

/-- `addZipWith7z`: tiered packing.  Tier 1 is zip mode, `-mx=7`, a
multi-thread flag with the logical CPU count and the three timestamp flags;
tier 2 drops only the timestamp flags; tier 3 is `-mx=9` alone.  A remaining
non-zero exit raises a packing error carrying the raw output. -/
def addZipWith7z (runRes : List JStr → RunAns) (coreNum : Nat) (bin outZip : JStr)
    (entries : List JStr) : Except ConvErr Unit × List Ev :=
  let args1 := packArgs1 coreNum outZip entries
  let r1 := runRes args1
  let ev1 := Ev.runE bin args1 r1.exitCode
  if r1.exitCode = 0 then (.ok (), [ev1])
  else if sigArgUnsupported r1.all then
    let args2 := packArgs2 coreNum outZip entries
    let r2 := runRes args2
    let ev2 := Ev.runE bin args2 r2.exitCode
    if r2.exitCode = 0 then (.ok (), [ev1, ev2])
    else if sigMmtUnsupported r2.all then
      let args3 := packArgs3 outZip entries
      let r3 := runRes args3
      let ev3 := Ev.runE bin args3 r3.exitCode
      if r3.exitCode = 0 then (.ok (), [ev1, ev2, ev3])
      else (.error (.packFailed r3.exitCode r3.all), [ev1, ev2, ev3])
    else (.error (.packFailed r2.exitCode r2.all), [ev1, ev2])
  else (.error (.packFailed r1.exitCode r1.all), [ev1])

/-- Failure classification of `extractWith7z`: `E_FAIL` output from a binary
whose version output matches the broken p7zip 16.02 build raises the
remediation error; any other failure raises the generic error carrying the
raw output. -/
def extractClassify (r : RunAns) (version : JStr) : Except ConvErr Unit :=
  if r.exitCode = 0 then .ok ()
  else if containsCI (chars "E_FAIL") r.all && isP7zip16 version then
    .error (.extractRemediation r.all)
  else
    .error (.extractFailed (jsOr r.all (chars "7z unpack failed exitCode=" ++ intStr r.exitCode)))

def placeholderName : JStr := chars ".zip_empty_placeholder"

/-- Verification and final stat of `convert7zToZip` steps 8: the listing run
of the produced zip (counts parsed and reported only) and the existence
check of the output file. -/
def finishVerify (env : ConvertEnv) (bin outZip : JStr) (acc : List Ev) :
    Except ConvErr JStr × List Ev :=
  let vArgs := [chars "l", chars "-slt", outZip]
  let vr := env.runRes vArgs
  let _counts := verifyCounts vr.all
  let acc1 := acc ++ [Ev.runE bin vArgs vr.exitCode]
  if env.outIsFile then (.ok outZip, acc1) else (.error .outputMissing, acc1)

/-- Steps 5–8 of `convert7zToZip` (the `try` body): extract, list entries,
pack (with the zero-entry placeholder special case), verify. -/
def convertBody (env : ConvertEnv) (bin version filePath outZip workDir : JStr) :
    Except ConvErr JStr × List Ev :=
  let xArgs := [chars "x", filePath, chars "-o" ++ workDir, chars "-y", chars "-bd"]
  let xr := env.runRes xArgs
  let xEv := Ev.runE bin xArgs xr.exitCode
  match extractClassify xr version with
  | .error e => (.error e, [xEv])
  | .ok _ =>
    let entries := listAllRelativeEntries (.dir env.extractTree)
    if entries.isEmpty then
      let wEv := Ev.writeFileE (workDir ++ '/' :: placeholderName)
      let packed := addZipWith7z env.runRes env.coreNum bin outZip [placeholderName]
      match packed.1 with
      | .error e => (.error e, xEv :: wEv :: packed.2)
      | .ok _ =>
        let dArgs := [chars "d", outZip, placeholderName]
        let dr := env.runRes dArgs
        finishVerify env bin outZip (xEv :: wEv :: (packed.2 ++ [Ev.runE bin dArgs dr.exitCode]))
    else
      let packed := addZipWith7z env.runRes env.coreNum bin outZip entries
      match packed.1 with
      | .error e => (.error e, xEv :: packed.2)
      | .ok _ => finishVerify env bin outZip (xEv :: packed.2)

/-- JS `String.trim` (ASCII whitespace). -/
def trimWs (s : JStr) : JStr :=
  ((s.dropWhile isWsChar).reverse.dropWhile isWsChar).reverse

/-- `convert7zToZip(filePath, outputPath)`: binary resolution, input
validation, probe classification (encryption before generic invalidity),
output-path computation, temporary workspace creation, the conversion body,
and unconditional removal of the temporary root. -/
def convert7zToZip (env : ConvertEnv) (filePath : JStr) (outputPath : Option JStr) :
    Except ConvErr JStr × List Ev :=
  let picked := pick7zBinary env.renv
  let bin := picked.1.1
  let version := picked.1.2
  let tr0 := picked.2
  if (trimWs filePath).isEmpty then (.error .emptyPath, tr0)
  else if !env.statIsFile then (.error (.fileNotFound filePath), tr0)
  else
    let ext := lowerStr (extnameOf filePath)
    if ext ≠ chars ".7z" then (.error .badExtension, tr0)
    else
      let pArgs := [chars "l", chars "-slt", filePath]
      let pa := env.runRes pArgs
      let pr := probeClassify pa.exitCode pa.all
      let tr1 := tr0 ++ [Ev.runE bin pArgs pa.exitCode]
      if pr.isEncrypted then (.error .encrypted, tr1)
      else if !pr.isType7z || pr.looksInvalid || pr.exitCode != 0 then
        (.error .invalidArchive, tr1)
      else
        let outZip := computeOutZip filePath ext outputPath
        let workDir := env.tmpRoot ++ chars "/w"
        let body := convertBody env bin version filePath outZip workDir
        (body.1,
         tr1 ++ [Ev.mkdtempE env.tmpRoot, Ev.mkdirE workDir] ++ body.2 ++ [Ev.rmrfE env.tmpRoot])

/-- Modelled from the spec: §4.6's expectation of the external archive tool,
which is not part of this repository.  A successful `a -tzip` run creates
the archive containing exactly the listed entries (the arguments after the
switches are the output path then the entries); a `d` run removes the named
entry from the archive whatever its exit status (the spec ignores that
deletion's exit status yet expects a genuinely empty zip). -/
def zipStep (st : Option (List JStr)) : Ev → Option (List JStr)
  | .runE _ (c :: rest) ec =>
    if c = chars "a" then
      if ec = 0 then some ((rest.dropWhile (fun s => s.head? = some '-')).tail)
      else st
    else if c = chars "d" then
      match st, rest with
      | some es, [_, name] => some (es.filter (fun e => e ≠ name))
      | _, _ => st
    else st
  | _ => st

/-- The final entry list of the produced zip under the conforming-tool
interpretation of the emitted command trace. -/
def zipStateAfter (tr : List Ev) : Option (List JStr) :=
  tr.foldl zipStep none

/-- Spec-side rendering of a case-insensitive substring occurrence. -/
def specContainsCI (k s : JStr) : Prop :=
  ∃ pre post, lowerStr s = pre ++ lowerStr k ++ post

/-- Spec-side rendering of "an error/warning count reported in the summary":
the key occurs (case-insensitively) followed by optional whitespace and a
digit. -/
def specCountLine (key s : JStr) : Prop :=
  ∃ pre k w d post, s = pre ++ k ++ w ++ d :: post ∧
    lowerStr k = lowerStr key ∧ (∀ c ∈ w, isWsChar c = true) ∧ isDigitChar d = true

/-- Spec-side rendering of "a non-zero error/warning count reported in the
summary": the key followed by optional whitespace and a digit string whose
numeric value is positive. -/
def specPositiveCount (key s : JStr) : Prop :=
  ∃ pre k w ds post, s = pre ++ k ++ w ++ ds ++ post ∧
    lowerStr k = lowerStr key ∧ (∀ c ∈ w, isWsChar c = true) ∧
    ds ≠ [] ∧ (∀ c ∈ ds, isDigitChar c = true) ∧ 0 < digitsVal ds

/-- Position matcher for a key followed by whitespace and a digit run of
positive value. -/
def posCountAt (key r : JStr) : Bool :=
  match stripCI key r with
  | none => false
  | some r1 => ((r1.dropWhile isWsChar).takeWhile isDigitChar).any (fun c => c ≠ '0')

def reportsPositiveB (key s : JStr) : Bool := scanB (posCountAt key) s

/-- Claim C8's classification rule exactly as stated: a cannot-open message,
or a non-zero exit code together with a non-zero error/warning count. -/
def c8ClaimPred (exitCode : Int) (s : JStr) : Prop :=
  specContainsCI (chars "Can not open file as archive") s ∨
  (exitCode ≠ 0 ∧
    (specPositiveCount (chars "Errors:") s ∨ specPositiveCount (chars "Warnings:") s))

/-- A resolution environment in which nothing answers the version query
(every candidate fails to launch). -/
def demoResolveEnv : ResolveEnv :=
  { overrideBin := none
    binDirEnv := none
    cwd := chars "c"
    fsExists := fun _ => false
    tryOut := fun _ => none
    builtin := chars "7za"
    platformArch := chars "linux-x64" }

/-- Process-runner oracle of the demonstration conversion: listings report a
valid unencrypted 7z, extraction and packing succeed, the delete-entry
command fails (its status is ignored). -/
def demoRun (args : List JStr) : RunAns :=
  if args.head? = some (chars "l") then ⟨0, chars "Type = 7z", []⟩
  else if args.head? = some (chars "x") then ⟨0, [], []⟩
  else if args.head? = some (chars "a") then ⟨0, [], []⟩
  else ⟨2, chars "cannot delete", []⟩

/-- Demonstration conversion environment: valid empty archive, two logical
cores, temporary root `T`. -/
def demoEnv : ConvertEnv :=
  { renv := demoResolveEnv
    statIsFile := true
    runRes := demoRun
    extractTree := .nil
    outIsFile := true
    tmpRoot := chars "T"
    coreNum := 2 }

/-- Demonstration environment whose listing output asks for a password. -/
def demoEncEnv : ConvertEnv :=
  { demoEnv with
    runRes := fun args =>
      if args.head? = some (chars "l") then ⟨1, chars "Enter password", []⟩
      else demoRun args }

/-- Demonstration extracted tree: `a/b.txt` and an empty directory `c/`. -/
def demoEnts : FsEnts :=
  .cons (chars "a") (.dir (.cons (chars "b.txt") .file .nil))
    (.cons (chars "c") (.dir .nil) .nil)

/-- Relative path of a node reached from `rel` along the segment path `p`
(the walk's accumulated `rel` argument). -/
def encAt (rel : JStr) (p : List JStr) : JStr := p.foldl joinRel rel

/-- The separator-prefixed concatenation of a segment list. -/
def segsTail (p : List JStr) : JStr := p.flatMap (fun s => '/' :: s)

/-- `rel` followed by a separator when non-empty (the prefix every child
path of the node at `rel` starts with). -/
def qSlash (q : JStr) : JStr := if q = [] then [] else q ++ ['/']

instance : DecidableEq (Except ConvErr JStr) := fun a b =>
  match a, b with
  | .ok x, .ok y =>
    if h : x = y then isTrue (by rw [h]) else isFalse (fun hc => h (Except.ok.inj hc))
  | .ok _, .error _ => isFalse (fun hc => Except.noConfusion hc)
  | .error _, .ok _ => isFalse (fun hc => Except.noConfusion hc)
  | .error e, .error f =>
    if h : e = f then isTrue (by rw [h]) else isFalse (fun hc => h (Except.error.inj hc))

theorem searchNames_events (e : ResolveEnv) (d : JStr) :
    ∀ ns, ∀ ev ∈ (searchNames e d ns).2, ev.isTry = true := by
  intro ns
  induction ns with
  | nil => intro ev h; simp [searchNames] at h
  | cons n ns ih =>
    intro ev h
    simp only [searchNames] at h
    cases hex : e.fsExists (d ++ '/' :: n) with
    | false => simp only [hex, Bool.false_eq_true, if_false] at h; exact ih ev h
    | true =>
      simp only [hex, if_true] at h
      cases hout : e.tryOut (d ++ '/' :: n) with
      | none =>
        simp only [hout] at h
        rcases List.mem_cons.mp h with h | h
        · subst h; rfl
        · exact ih ev h
      | some o =>
        simp only [hout] at h
        cases hrec : recognizes o with
        | false =>
          simp only [hrec, Bool.false_eq_true, if_false] at h
          rcases List.mem_cons.mp h with h | h
          · subst h; rfl
          · exact ih ev h
        | true =>
          simp only [hrec, if_true] at h
          rcases List.mem_singleton.mp h with h
          subst h; rfl

theorem searchDirs_events (e : ResolveEnv) :
    ∀ ds, ∀ ev ∈ (searchDirs e ds).2, ev.isTry = true := by
  intro ds
  induction ds with
  | nil => intro ev h; simp [searchDirs] at h
  | cons d ds ih =>
    intro ev h
    simp only [searchDirs] at h
    rcases hsn : searchNames e d (candidateNames e) with ⟨r, tr⟩
    rw [hsn] at h
    have hn := searchNames_events e d (candidateNames e) ev
    rw [hsn] at hn
    cases r with
    | some v => exact hn h
    | none =>
      simp only [List.mem_append] at h
      rcases h with h | h
      · exact hn h
      · exact ih ev h

theorem searchPath_events (e : ResolveEnv) :
    ∀ ns, ∀ ev ∈ (searchPath e ns).2, ev.isTry = true := by
  intro ns
  induction ns with
  | nil => intro ev h; simp [searchPath] at h
  | cons n ns ih =>
    intro ev h
    simp only [searchPath] at h
    cases hout : e.tryOut n with
    | none =>
      simp only [hout] at h
      rcases List.mem_cons.mp h with h | h
      · subst h; rfl
      · exact ih ev h
    | some o =>
      simp only [hout] at h
      cases hrec : recognizes o with
      | false =>
        simp only [hrec, Bool.false_eq_true, if_false] at h
        rcases List.mem_cons.mp h with h | h
        · subst h; rfl
        · exact ih ev h
      | true =>
        simp only [hrec, if_true] at h
        rcases List.mem_singleton.mp h with h
        subst h; rfl

theorem tryOverride_events (e : ResolveEnv) :
    ∀ ev ∈ (tryOverride e).2, ev.isTry = true := by
  intro ev h
  unfold tryOverride at h
  rcases hov : e.overrideBin with _ | p
  · simp [hov] at h
  · simp only [hov] at h
    rcases hout : e.tryOut p with _ | o
    · simp only [hout] at h
      rcases List.mem_singleton.mp h with h
      subst h; rfl
    · simp only [hout] at h
      rcases List.mem_singleton.mp h with h
      subst h; rfl

theorem pick7zBinary_events (e : ResolveEnv) :
    ∀ ev ∈ (pick7zBinary e).2, ev.isTry = true := by
  intro ev h
  unfold pick7zBinary at h
  have h1 := tryOverride_events e ev
  have hd := searchDirs_events e (candidateDirs e) ev
  have hp := searchPath_events e (candidateNames e) ev
  rcases e1 : (tryOverride e).1 with _ | r
  · simp only [e1] at h
    rcases e2 : (searchDirs e (candidateDirs e)).1 with _ | r
    · simp only [e2] at h
      rcases e3 : (searchPath e (candidateNames e)).1 with _ | r
      · simp only [e3] at h
        rcases List.mem_append.mp h with h | h
        rcases List.mem_append.mp h with h | h
        rcases List.mem_append.mp h with h | h
        · exact h1 h
        · exact hd h
        · exact hp h
        · rcases List.mem_singleton.mp h with h
          subst h; rfl
      · simp only [e3] at h
        rcases List.mem_append.mp h with h | h
        rcases List.mem_append.mp h with h | h
        · exact h1 h
        · exact hd h
        · exact hp h
    · simp only [e2] at h
      rcases List.mem_append.mp h with h | h
      · exact h1 h
      · exact hd h
  · simp only [e1] at h
    exact h1 h

theorem try_not_run (ev : Ev) (h : ev.isTry = true) : ev.isRun = false := by
  cases ev <;> simp_all [Ev.isTry, Ev.isRun]

theorem pick_no_mkdtemp (e : ResolveEnv) (r : JStr) :
    Ev.mkdtempE r ∉ (pick7zBinary e).2 := by
  intro h
  have := pick7zBinary_events e _ h
  simp [Ev.isTry] at this

theorem pick_countRun (e : ResolveEnv) :
    (pick7zBinary e).2.countP Ev.isRun = 0 := by
  refine List.countP_eq_zero.mpr ?_
  intro ev h hr
  have := try_not_run ev (pick7zBinary_events e ev h)
  rw [this] at hr
  exact Bool.false_ne_true hr

/-- C2: every conversion that creates the temporary root removes it as its
final action, on every exit path. -/
theorem convert_removes_tmpRoot (env : ConvertEnv) (fp : JStr) (op : Option JStr)
    (h : Ev.mkdtempE env.tmpRoot ∈ (convert7zToZip env fp op).2) :
    ((convert7zToZip env fp op).2).getLast? = some (Ev.rmrfE env.tmpRoot) := by
  unfold convert7zToZip at h ⊢
  by_cases h1 : (trimWs fp).isEmpty = true
  · rw [if_pos h1] at h
    exact absurd h (pick_no_mkdtemp _ _)
  · rw [if_neg h1] at h ⊢
    by_cases h2 : env.statIsFile = true
    · simp only [h2, Bool.not_true, Bool.false_eq_true, if_false] at h ⊢
      by_cases h3 : lowerStr (extnameOf fp) = chars ".7z"
      · rw [if_neg (by simp [h3])] at h ⊢
        by_cases h4 : (probeClassify (env.runRes [chars "l", chars "-slt", fp]).exitCode
            (env.runRes [chars "l", chars "-slt", fp]).all).isEncrypted = true
        · rw [if_pos h4] at h
          rcases List.mem_append.mp h with h | h
          · exact absurd h (pick_no_mkdtemp _ _)
          · simp at h
        · rw [if_neg h4] at h ⊢
          by_cases h5 : (!(probeClassify (env.runRes [chars "l", chars "-slt", fp]).exitCode
              (env.runRes [chars "l", chars "-slt", fp]).all).isType7z ||
              (probeClassify (env.runRes [chars "l", chars "-slt", fp]).exitCode
              (env.runRes [chars "l", chars "-slt", fp]).all).looksInvalid ||
              (probeClassify (env.runRes [chars "l", chars "-slt", fp]).exitCode
              (env.runRes [chars "l", chars "-slt", fp]).all).exitCode != 0) = true
          · rw [if_pos h5] at h
            rcases List.mem_append.mp h with h | h
            · exact absurd h (pick_no_mkdtemp _ _)
            · simp at h
          · rw [if_neg h5]
            rw [show ∀ a b c d : List Ev, a ++ b ++ c ++ d = (a ++ b ++ c) ++ d from
              fun a b c d => by simp [List.append_assoc]]
            exact List.getLast?_concat _
      · rw [if_pos (by simp [h3])] at h
        exact absurd h (pick_no_mkdtemp _ _)
    · simp only [Bool.not_eq_true] at h2
      simp only [h2, Bool.not_false, if_true] at h
      exact absurd h (pick_no_mkdtemp _ _)

/-- C2 witness. -/
theorem convert_removes_tmpRoot_witness :
    Ev.mkdtempE demoEnv.tmpRoot ∈ (convert7zToZip demoEnv (chars "a.7z") none).2 ∧
    ((convert7zToZip demoEnv (chars "a.7z") none).2).getLast? =
      some (Ev.rmrfE demoEnv.tmpRoot) :=
  ⟨by decide, convert_removes_tmpRoot demoEnv (chars "a.7z") none (by decide)⟩

/-- C6: an empty path, a missing file, or a wrong extension fails the
conversion with the process-runner call count still zero. -/
theorem convert_invalid_input_no_run (env : ConvertEnv) (fp : JStr) (op : Option JStr)
    (h : (trimWs fp).isEmpty = true ∨ env.statIsFile = false ∨
      lowerStr (extnameOf fp) ≠ chars ".7z") :
    (∃ er, (convert7zToZip env fp op).1 = .error er) ∧
    (convert7zToZip env fp op).2.countP Ev.isRun = 0 := by
  unfold convert7zToZip
  by_cases h1 : (trimWs fp).isEmpty = true
  · rw [if_pos h1]
    exact ⟨⟨.emptyPath, rfl⟩, pick_countRun _⟩
  · rw [if_neg h1]
    by_cases h2 : env.statIsFile = true
    · simp only [h2, Bool.not_true, Bool.false_eq_true, if_false]
      have h3 : lowerStr (extnameOf fp) ≠ chars ".7z" := by
        rcases h with h | h | h
        · exact absurd h h1
        · rw [h] at h2; exact absurd h2 (by simp)
        · exact h
      rw [if_pos h3]
      exact ⟨⟨.badExtension, rfl⟩, pick_countRun _⟩
    · simp only [Bool.not_eq_true] at h2
      simp only [h2, Bool.not_false, if_true]
      exact ⟨⟨.fileNotFound fp, rfl⟩, pick_countRun _⟩

/-- C6 witness. -/
theorem convert_invalid_input_no_run_witness :
    ((trimWs (chars "a.txt")).isEmpty = true ∨ demoEnv.statIsFile = false ∨
      lowerStr (extnameOf (chars "a.txt")) ≠ chars ".7z") ∧
    (∃ er, (convert7zToZip demoEnv (chars "a.txt") none).1 = .error er) ∧
    (convert7zToZip demoEnv (chars "a.txt") none).2.countP Ev.isRun = 0 :=
  ⟨by decide, convert_invalid_input_no_run demoEnv (chars "a.txt") none (by decide)⟩

theorem scanB_iff (f : JStr → Bool) (s : JStr) :
    scanB f s = true ↔ ∃ pre suf, s = pre ++ suf ∧ f suf = true := by
  induction s with
  | nil =>
    simp only [scanB]
    constructor
    · intro h; exact ⟨[], [], rfl, h⟩
    · rintro ⟨pre, suf, hs, hf⟩
      rcases List.append_eq_nil.mp hs.symm with ⟨rfl, rfl⟩
      exact hf
  | cons x xs ih =>
    simp only [scanB, Bool.or_eq_true, ih]
    constructor
    · rintro (h | ⟨pre, suf, rfl, hf⟩)
      · exact ⟨[], x :: xs, rfl, h⟩
      · exact ⟨x :: pre, suf, rfl, hf⟩
    · rintro ⟨pre, suf, hs, hf⟩
      cases pre with
      | nil =>
        simp only [List.nil_append] at hs
        subst hs
        exact Or.inl hf
      | cons y pre =>
        simp only [List.cons_append, List.cons.injEq] at hs
        exact Or.inr ⟨pre, suf, hs.2, hf⟩

theorem stripCI_eq_some_iff (k : JStr) :
    ∀ s r, stripCI k s = some r ↔ ∃ u, s = u ++ r ∧ lowerStr u = lowerStr k := by
  induction k with
  | nil =>
    intro s r
    simp only [stripCI, Option.some.injEq]
    constructor
    · rintro rfl; exact ⟨[], rfl, rfl⟩
    · rintro ⟨u, rfl, hu⟩
      have : u = [] := by
        have := congrArg List.length hu
        simpa [lowerStr] using this
      simp [this]
  | cons c k ih =>
    intro s r
    cases s with
    | nil =>
      simp only [stripCI]
      constructor
      · intro h; exact absurd h (by simp)
      · rintro ⟨u, hu, hl⟩
        rcases List.append_eq_nil.mp hu.symm with ⟨rfl, rfl⟩
        simp [lowerStr] at hl
    | cons x s =>
      simp only [stripCI]
      by_cases hx : asciiLower x = asciiLower c
      · rw [if_pos hx]
        rw [ih s r]
        constructor
        · rintro ⟨u, rfl, hu⟩
          exact ⟨x :: u, rfl, by simp [lowerStr] at hu ⊢; exact ⟨hx, hu⟩⟩
        · rintro ⟨u, hu, hl⟩
          cases u with
          | nil => simp [lowerStr] at hl
          | cons y u =>
            simp only [List.cons_append, List.cons.injEq] at hu
            rcases hu with ⟨rfl, rfl⟩
            simp only [lowerStr, List.map_cons, List.cons.injEq] at hl
            exact ⟨u, rfl, hl.2⟩
      · rw [if_neg hx]
        constructor
        · intro h; exact absurd h (by simp)
        · rintro ⟨u, hu, hl⟩
          cases u with
          | nil => simp [lowerStr] at hl
          | cons y u =>
            simp only [List.cons_append, List.cons.injEq] at hu
            rcases hu with ⟨rfl, rfl⟩
            simp only [lowerStr, List.map_cons, List.cons.injEq] at hl
            exact absurd hl.1 hx

theorem containsCI_iff (k s : JStr) : containsCI k s = true ↔ specContainsCI k s := by
  unfold containsCI specContainsCI
  rw [scanB_iff]
  constructor
  · rintro ⟨pre, suf, rfl, hf⟩
    rcases Option.isSome_iff_exists.mp hf with ⟨r, hr⟩
    rcases (stripCI_eq_some_iff k suf r).mp hr with ⟨u, rfl, hu⟩
    refine ⟨lowerStr pre, lowerStr r, ?_⟩
    simp only [lowerStr, List.map_append, List.append_assoc]
    rw [show List.map asciiLower u = List.map asciiLower k from hu]
  · rintro ⟨pre, post, hs⟩
    unfold lowerStr at hs
    rw [List.append_assoc] at hs
    rcases List.map_eq_append_iff.mp hs with ⟨s1, s23, rfl, hm1, hm23⟩
    rcases List.map_eq_append_iff.mp hm23 with ⟨s2, s3, rfl, hm2, hm3⟩
    refine ⟨s1, s2 ++ s3, rfl, ?_⟩
    rw [(stripCI_eq_some_iff k (s2 ++ s3) s3).mpr ⟨s2, rfl, hm2⟩]
    rfl

theorem digit_not_ws (c : Char) (h : isDigitChar c = true) : isWsChar c = false := by
  by_contra hw
  rw [Bool.not_eq_false] at hw
  simp only [isWsChar, Bool.or_eq_true, decide_eq_true_eq] at hw
  rcases hw with ((((rfl | rfl) | rfl) | rfl) | rfl) | rfl <;> exact absurd h (by decide)

theorem countLineAt_iff (key r : JStr) :
    countLineAt key r = true ↔ ∃ k w d rest, r = k ++ (w ++ d :: rest) ∧
      lowerStr k = lowerStr key ∧ (∀ c ∈ w, isWsChar c = true) ∧ isDigitChar d = true := by
  unfold countLineAt
  constructor
  · intro h
    rcases hstr : stripCI key r with _ | r1
    · rw [hstr] at h; exact absurd h (by simp)
    · rw [hstr] at h
      dsimp only at h
      rcases hdw : r1.dropWhile isWsChar with _ | ⟨d, rest⟩
      · rw [hdw] at h; exact absurd h (by simp)
      · rw [hdw] at h
        rcases (stripCI_eq_some_iff key r r1).mp hstr with ⟨k, rfl, hk⟩
        refine ⟨k, r1.takeWhile isWsChar, d, rest, ?_, hk, ?_, h⟩
        · rw [← hdw, List.takeWhile_append_dropWhile]
        · intro c hc; exact List.mem_takeWhile_imp hc
  · rintro ⟨k, w, d, rest, rfl, hk, hw, hd⟩
    rw [(stripCI_eq_some_iff key _ _).mpr ⟨k, rfl, hk⟩]
    dsimp only
    have h1 : List.dropWhile isWsChar (w ++ d :: rest) = d :: rest := by
      rw [List.dropWhile_append]
      rw [List.dropWhile_eq_nil_iff.mpr hw]
      simp only [List.isEmpty_nil, if_true]
      rw [List.dropWhile_cons, digit_not_ws d hd]
      simp
    rw [h1]
    dsimp only
    exact hd

theorem specCountLine_iff (key s : JStr) :
    scanB (countLineAt key) s = true ↔ specCountLine key s := by
  rw [scanB_iff]
  unfold specCountLine
  constructor
  · rintro ⟨pre, suf, rfl, hf⟩
    rcases (countLineAt_iff key suf).mp hf with ⟨k, w, d, rest, rfl, hk, hw, hd⟩
    exact ⟨pre, k, w, d, rest, by simp [List.append_assoc], hk, hw, hd⟩
  · rintro ⟨pre, k, w, d, post, hs, hk, hw, hd⟩
    refine ⟨pre, k ++ (w ++ d :: post), by simpa [List.append_assoc] using hs, ?_⟩
    exact (countLineAt_iff key _).mpr ⟨k, w, d, post, rfl, hk, hw, hd⟩

theorem digitsVal_eq_zero (ds : JStr) (h : ∀ c ∈ ds, c = '0') : digitsVal ds = 0 := by
  induction ds with
  | nil => rfl
  | cons c ds ih =>
    have hc := h c (List.mem_cons_self c ds)
    subst hc
    have h0 : (0 * 10 + ('0'.toNat - 48)) = 0 := by decide
    unfold digitsVal at ih ⊢
    rw [List.foldl_cons, h0]
    exact ih (fun c hc => h c (List.mem_cons_of_mem _ hc))

theorem specPositiveCount_sound (key s : JStr) (h : specPositiveCount key s) :
    reportsPositiveB key s = true := by
  rcases h with ⟨pre, k, w, ds, post, hs, hk, hw, hne, hd, hpos⟩
  obtain ⟨d0, ds', rfl⟩ := List.exists_cons_of_ne_nil hne
  unfold reportsPositiveB
  rw [scanB_iff]
  refine ⟨pre, k ++ (w ++ (d0 :: ds' ++ post)), by simpa [List.append_assoc] using hs, ?_⟩
  unfold posCountAt
  rw [(stripCI_eq_some_iff key _ _).mpr ⟨k, rfl, hk⟩]
  dsimp only
  have h1 : List.dropWhile isWsChar (w ++ (d0 :: ds' ++ post)) = d0 :: ds' ++ post := by
    rw [List.dropWhile_append, List.dropWhile_eq_nil_iff.mpr hw]
    simp only [List.isEmpty_nil, if_true]
    rw [List.dropWhile_append, List.dropWhile_cons,
      digit_not_ws d0 (hd d0 (List.mem_cons_self _ _))]
    simp
  rw [h1]
  have h2 : List.takeWhile isDigitChar (d0 :: ds' ++ post) =
      (d0 :: ds') ++ List.takeWhile isDigitChar post := by
    rw [List.takeWhile_append, List.takeWhile_eq_self_iff.mpr hd]
    simp
  rw [h2]
  have h3 : ∃ c ∈ (d0 :: ds'), c ≠ '0' := by
    by_contra hall
    push_neg at hall
    exact absurd (digitsVal_eq_zero _ hall) (by omega)
  rcases h3 with ⟨c, hc, hcne⟩
  rw [List.any_eq_true]
  exact ⟨c, List.mem_append_left _ hc, by simpa using hcne⟩

/-- C8 counterexample: with output `Errors: 0` and exit code 1 the code sets
`looksInvalid = true`, although no non-zero error/warning count is reported. -/
theorem looksInvalid_zero_count_counterexample :
    looksInvalidOf 1 (chars "Errors: 0") = true ∧ ¬ c8ClaimPred 1 (chars "Errors: 0") := by
  refine ⟨by decide, ?_⟩
  rintro (h | ⟨-, h | h⟩)
  · have hb := (containsCI_iff (chars "Can not open file as archive") (chars "Errors: 0")).mpr h
    revert hb; decide
  · have hb := specPositiveCount_sound (chars "Errors:") (chars "Errors: 0") h
    revert hb; decide
  · have hb := specPositiveCount_sound (chars "Warnings:") (chars "Errors: 0") h
    revert hb; decide

/-- C8 amended: `looksInvalid` holds exactly when the output contains a
cannot-open-as-archive message, or an error/warning count line (any count,
zero included) appears together with a non-zero exit code. -/
theorem looksInvalid_characterization (ec : Int) (s : JStr) :
    looksInvalidOf ec s = true ↔
      (specContainsCI (chars "Can not open file as archive") s ∨
       ((specCountLine (chars "Errors:") s ∨ specCountLine (chars "Warnings:") s) ∧
         ec ≠ 0)) := by
  unfold looksInvalidOf
  simp only [Bool.or_eq_true, Bool.and_eq_true, containsCI_iff, specCountLine_iff, bne_iff_ne]

theorem try_not_extract (ev : Ev) (h : ev.isTry = true) : ev.isExtract = false := by
  cases ev <;> simp_all [Ev.isTry, Ev.isExtract]

/-- C1: a probe classified encrypted, unrecognized, invalid-looking or with
a non-zero exit code aborts the conversion before any extraction command;
encryption is reported as such, not as generic invalidity, and an
"Enter password" occurrence alone forces the encrypted classification
whatever the exit code. -/
theorem convert_probe_reject (env : ConvertEnv) (fp : JStr) (op : Option JStr)
    (h1 : (trimWs fp).isEmpty = false)
    (h2 : env.statIsFile = true)
    (h3 : lowerStr (extnameOf fp) = chars ".7z")
    (hbad : (probeClassify (env.runRes [chars "l", chars "-slt", fp]).exitCode
        (env.runRes [chars "l", chars "-slt", fp]).all).isEncrypted = true ∨
      (probeClassify (env.runRes [chars "l", chars "-slt", fp]).exitCode
        (env.runRes [chars "l", chars "-slt", fp]).all).isType7z = false ∨
      (probeClassify (env.runRes [chars "l", chars "-slt", fp]).exitCode
        (env.runRes [chars "l", chars "-slt", fp]).all).looksInvalid = true ∨
      (probeClassify (env.runRes [chars "l", chars "-slt", fp]).exitCode
        (env.runRes [chars "l", chars "-slt", fp]).all).exitCode ≠ 0) :
    (∃ er, (convert7zToZip env fp op).1 = .error er) ∧
    (∀ ev ∈ (convert7zToZip env fp op).2, ev.isExtract = false) ∧
    ((probeClassify (env.runRes [chars "l", chars "-slt", fp]).exitCode
        (env.runRes [chars "l", chars "-slt", fp]).all).isEncrypted = true →
      (convert7zToZip env fp op).1 = .error .encrypted) ∧
    (∀ ec s, specContainsCI (chars "Enter password") s →
      (probeClassify ec s).isEncrypted = true) := by
  have hEnter : ∀ (ec : Int) (s : JStr), specContainsCI (chars "Enter password") s →
      (probeClassify ec s).isEncrypted = true := by
    intro ec s h
    have hc := (containsCI_iff (chars "Enter password") s).mpr h
    show detectPassword s = true
    unfold detectPassword
    rw [hc]
    simp
  have hTr : ∀ (b : JStr) (ec : Int),
      ∀ ev ∈ (pick7zBinary env.renv).2 ++ [Ev.runE b [chars "l", chars "-slt", fp] ec],
        ev.isExtract = false := by
    intro b ec ev hm
    rcases List.mem_append.mp hm with hm | hm
    · exact try_not_extract ev (pick7zBinary_events env.renv ev hm)
    · rcases List.mem_singleton.mp hm with rfl
      simp [Ev.isExtract, chars]
  unfold convert7zToZip
  rw [if_neg (by simp [h1])]
  simp only [h2, Bool.not_true, Bool.false_eq_true, if_false]
  rw [if_neg (by simp [h3])]
  by_cases hEnc : (probeClassify (env.runRes [chars "l", chars "-slt", fp]).exitCode
      (env.runRes [chars "l", chars "-slt", fp]).all).isEncrypted = true
  · rw [if_pos hEnc]
    exact ⟨⟨.encrypted, rfl⟩, hTr _ _, fun _ => rfl, hEnter⟩
  · rw [if_neg hEnc]
    have hInv : (!(probeClassify (env.runRes [chars "l", chars "-slt", fp]).exitCode
        (env.runRes [chars "l", chars "-slt", fp]).all).isType7z ||
        (probeClassify (env.runRes [chars "l", chars "-slt", fp]).exitCode
        (env.runRes [chars "l", chars "-slt", fp]).all).looksInvalid ||
        (probeClassify (env.runRes [chars "l", chars "-slt", fp]).exitCode
        (env.runRes [chars "l", chars "-slt", fp]).all).exitCode != 0) = true := by
      rcases hbad with hb | hb | hb | hb
      · exact absurd hb hEnc
      · simp [hb]
      · simp [hb]
      · simp [bne_iff_ne, hb]
    rw [if_pos hInv]
    exact ⟨⟨.invalidArchive, rfl⟩, hTr _ _, fun hc => absurd hc hEnc, hEnter⟩

/-- C1 witness. -/
theorem convert_probe_reject_witness :
    (probeClassify (demoEncEnv.runRes [chars "l", chars "-slt", chars "a.7z"]).exitCode
      (demoEncEnv.runRes [chars "l", chars "-slt", chars "a.7z"]).all).isEncrypted = true ∧
    (convert7zToZip demoEncEnv (chars "a.7z") none).1 = .error .encrypted :=
  ⟨by decide,
   (convert_probe_reject demoEncEnv (chars "a.7z") none (by decide) (by decide) (by decide)
     (Or.inl (by decide))).2.2.1 (by decide)⟩

/-- C7: a failing extraction raises the p7zip-16.02 remediation error
exactly when the output matches `E_FAIL` and the version output matches the
broken build; otherwise the generic error carrying the raw output. -/
theorem extract_failure_classification (r : RunAns) (version : JStr)
    (h : r.exitCode ≠ 0) :
    (containsCI (chars "E_FAIL") (RunAns.all r) && isP7zip16 version) = true ∧
      extractClassify r version = .error (.extractRemediation (RunAns.all r)) ∨
    (containsCI (chars "E_FAIL") (RunAns.all r) && isP7zip16 version) = false ∧
      extractClassify r version = .error (.extractFailed (RunAns.all r)) := by
  have hne : RunAns.all r ≠ [] := by
    unfold RunAns.all
    intro hc
    have := congrArg List.length hc
    simp at this
  unfold extractClassify
  rw [if_neg h]
  cases hb : (containsCI (chars "E_FAIL") (RunAns.all r) && isP7zip16 version) with
  | true =>
    left
    refine ⟨rfl, ?_⟩
    simp
  | false =>
    right
    refine ⟨rfl, ?_⟩
    simp only [Bool.false_eq_true, if_false]
    unfold jsOr
    rw [if_neg hne]

/-- C7 witness. -/
theorem extract_failure_classification_witness :
    (2 : Int) ≠ 0 ∧
    ((containsCI (chars "E_FAIL") (RunAns.all ⟨2, chars "E_FAIL", []⟩) &&
        isP7zip16 (chars "p7zip Version 16.02")) = true ∧
      extractClassify ⟨2, chars "E_FAIL", []⟩ (chars "p7zip Version 16.02") =
        .error (.extractRemediation (RunAns.all ⟨2, chars "E_FAIL", []⟩)) ∨
    (containsCI (chars "E_FAIL") (RunAns.all ⟨2, chars "E_FAIL", []⟩) &&
        isP7zip16 (chars "p7zip Version 16.02")) = false ∧
      extractClassify ⟨2, chars "E_FAIL", []⟩ (chars "p7zip Version 16.02") =
        .error (.extractFailed (RunAns.all ⟨2, chars "E_FAIL", []⟩))) :=
  ⟨by decide,
   extract_failure_classification ⟨2, chars "E_FAIL", []⟩ (chars "p7zip Version 16.02")
     (by decide)⟩

/-- C3: the packing tiers, attempted in order and each at most once.  Tier 1
carries zip mode, compression, a multi-thread flag equal to the CPU count
and the three timestamp flags; tier 2 keeps compression and threading but
drops the timestamps, and runs exactly when tier 1 fails with the
invalid-argument/unsupported-switch/incorrect-command-line signature; tier 3
uses maximum compression only and runs exactly when tier 2 fails with an
unsupported-switch signature citing the multi-thread flag; a remaining
failure carries the raw output. -/
theorem addZip_tier_fallback (runRes : List JStr → RunAns) (coreNum : Nat)
    (bin outZip : JStr) (entries : List JStr) :
    (packArgs1 coreNum outZip entries =
      [chars "a", chars "-tzip", chars "-mx=7", chars "-mmt=" ++ natStr coreNum,
       chars "-mtm=on", chars "-mtc=on", chars "-mta=on"] ++ outZip :: entries) ∧
    (packArgs2 coreNum outZip entries =
      [chars "a", chars "-tzip", chars "-mx=7", chars "-mmt=" ++ natStr coreNum] ++
        outZip :: entries) ∧
    (packArgs3 outZip entries =
      [chars "a", chars "-tzip", chars "-mx=9"] ++ outZip :: entries) ∧
    (let a1 := packArgs1 coreNum outZip entries
     let a2 := packArgs2 coreNum outZip entries
     let a3 := packArgs3 outZip entries
     let r1 := runRes a1
     let r2 := runRes a2
     let r3 := runRes a3
     let ev1 := Ev.runE bin a1 r1.exitCode
     let ev2 := Ev.runE bin a2 r2.exitCode
     let ev3 := Ev.runE bin a3 r3.exitCode
     if r1.exitCode = 0 then
       addZipWith7z runRes coreNum bin outZip entries = (.ok (), [ev1])
     else if sigArgUnsupported r1.all = true then
       (if r2.exitCode = 0 then
          addZipWith7z runRes coreNum bin outZip entries = (.ok (), [ev1, ev2])
        else if sigMmtUnsupported r2.all = true then
          (if r3.exitCode = 0 then
             addZipWith7z runRes coreNum bin outZip entries = (.ok (), [ev1, ev2, ev3])
           else
             addZipWith7z runRes coreNum bin outZip entries =
               (.error (.packFailed r3.exitCode r3.all), [ev1, ev2, ev3]))
        else
          addZipWith7z runRes coreNum bin outZip entries =
            (.error (.packFailed r2.exitCode r2.all), [ev1, ev2]))
     else
       addZipWith7z runRes coreNum bin outZip entries =
         (.error (.packFailed r1.exitCode r1.all), [ev1])) := by
  refine ⟨rfl, rfl, rfl, ?_⟩
  by_cases h1 : (runRes (packArgs1 coreNum outZip entries)).exitCode = 0
  · rw [if_pos h1]
    unfold addZipWith7z
    rw [if_pos h1]
  · rw [if_neg h1]
    by_cases hs1 : sigArgUnsupported (runRes (packArgs1 coreNum outZip entries)).all = true
    · rw [if_pos hs1]
      by_cases h2 : (runRes (packArgs2 coreNum outZip entries)).exitCode = 0
      · rw [if_pos h2]
        unfold addZipWith7z
        rw [if_neg h1, if_pos hs1, if_pos h2]
      · rw [if_neg h2]
        by_cases hs2 : sigMmtUnsupported (runRes (packArgs2 coreNum outZip entries)).all = true
        · rw [if_pos hs2]
          by_cases h3 : (runRes (packArgs3 outZip entries)).exitCode = 0
          · rw [if_pos h3]
            unfold addZipWith7z
            rw [if_neg h1, if_pos hs1, if_neg h2, if_pos hs2, if_pos h3]
          · rw [if_neg h3]
            unfold addZipWith7z
            rw [if_neg h1, if_pos hs1, if_neg h2, if_pos hs2, if_neg h3]
        · rw [if_neg hs2]
          unfold addZipWith7z
          rw [if_neg h1, if_pos hs1, if_neg h2, if_neg hs2]
    · rw [if_neg hs1]
      unfold addZipWith7z
      rw [if_neg h1, if_neg hs1]

/-- C10: extension checks are case-insensitive at the interface: an input
with extension `.7Z` passes validation (the process runner is invoked), and
a supplied output path with extension `.ZIP` gets no extra `.zip` suffix. -/
theorem convert_ext_case_insensitive :
    (∀ (env : ConvertEnv) (op : Option JStr), env.statIsFile = true →
      0 < ((convert7zToZip env (chars "a.7Z") op).2.countP Ev.isRun)) ∧
    (∀ fp ext, computeOutZip fp ext (some (chars "o.ZIP")) = chars "o.ZIP") := by
  constructor
  · intro env op h2
    have hcount : ∀ (b : JStr) (ec : Int) (rest : List Ev),
        0 < ((pick7zBinary env.renv).2 ++
          Ev.runE b [chars "l", chars "-slt", chars "a.7Z"] ec :: rest).countP Ev.isRun := by
      intro b ec rest
      rw [List.countP_append, pick_countRun, List.countP_cons]
      simp [Ev.isRun]
    unfold convert7zToZip
    rw [if_neg (by decide)]
    simp only [h2, Bool.not_true, Bool.false_eq_true, if_false]
    rw [if_neg (by decide)]
    by_cases hEnc : (probeClassify
        (env.runRes [chars "l", chars "-slt", chars "a.7Z"]).exitCode
        (env.runRes [chars "l", chars "-slt", chars "a.7Z"]).all).isEncrypted = true
    · rw [if_pos hEnc]
      exact hcount _ _ []
    · rw [if_neg hEnc]
      by_cases hInv : (!(probeClassify
          (env.runRes [chars "l", chars "-slt", chars "a.7Z"]).exitCode
          (env.runRes [chars "l", chars "-slt", chars "a.7Z"]).all).isType7z ||
          (probeClassify (env.runRes [chars "l", chars "-slt", chars "a.7Z"]).exitCode
          (env.runRes [chars "l", chars "-slt", chars "a.7Z"]).all).looksInvalid ||
          (probeClassify (env.runRes [chars "l", chars "-slt", chars "a.7Z"]).exitCode
          (env.runRes [chars "l", chars "-slt", chars "a.7Z"]).all).exitCode != 0) = true
      · rw [if_pos hInv]
        exact hcount _ _ []
      · rw [if_neg hInv]
        simp only [List.append_assoc, List.cons_append]
        exact hcount _ _ _
  · intro fp ext
    rfl

/-- C10 witness. -/
theorem convert_ext_case_insensitive_witness :
    demoEnv.statIsFile = true ∧
    0 < ((convert7zToZip demoEnv (chars "a.7Z") none).2.countP Ev.isRun) ∧
    computeOutZip (chars "a.7z") (chars ".7z") (some (chars "o.ZIP")) = chars "o.ZIP" :=
  ⟨rfl, convert_ext_case_insensitive.1 demoEnv none rfl,
   convert_ext_case_insensitive.2 (chars "a.7z") (chars ".7z")⟩

def resolvedPair (e : ResolveEnv) (c : JStr) : JStr × JStr := (c, (e.tryOut c).getD [])

theorem searchNames_resolve (e : ResolveEnv) (d : JStr) :
    ∀ ns, (searchNames e d ns).1 =
      (((ns.map (fun n => d ++ '/' :: n)).filter e.fsExists).find? (tryOk e)).map
        (resolvedPair e) := by
  intro ns
  induction ns with
  | nil => simp [searchNames]
  | cons n ns ih =>
    simp only [searchNames, List.map_cons, List.filter_cons]
    cases hex : e.fsExists (d ++ '/' :: n) with
    | false => simp only [hex, Bool.false_eq_true, if_false]; exact ih
    | true =>
      simp only [hex, if_true]
      cases hout : e.tryOut (d ++ '/' :: n) with
      | none =>
        simp only [hout]
        rw [List.find?_cons_of_neg _ (by simp [tryOk, hout])]
        exact ih
      | some o =>
        simp only [hout]
        cases hrec : recognizes o with
        | false =>
          simp only [hrec, Bool.false_eq_true, if_false]
          rw [List.find?_cons_of_neg _ (by simp [tryOk, hout, hrec])]
          exact ih
        | true =>
          simp only [hrec, if_true]
          rw [List.find?_cons_of_pos _ (by simp [tryOk, hout, hrec])]
          simp [resolvedPair, hout]

theorem searchDirs_resolve (e : ResolveEnv) :
    ∀ ds, (searchDirs e ds).1 =
      ((ds.flatMap
        (fun d => ((candidateNames e).map (fun n => d ++ '/' :: n)).filter e.fsExists)).find?
          (tryOk e)).map (resolvedPair e) := by
  intro ds
  induction ds with
  | nil => simp [searchDirs]
  | cons d ds ih =>
    simp only [searchDirs, List.flatMap_cons, List.find?_append]
    have hn := searchNames_resolve e d (candidateNames e)
    rcases hsn : searchNames e d (candidateNames e) with ⟨r, tr⟩
    rw [hsn] at hn
    simp only at hn
    cases hfind : (((candidateNames e).map (fun n => d ++ '/' :: n)).filter e.fsExists).find?
        (tryOk e) with
    | some c =>
      rw [hfind] at hn
      simp only [Option.map_some'] at hn
      subst hn
      simp [Option.or]
    | none =>
      rw [hfind] at hn
      simp only [Option.map_none'] at hn
      subst hn
      simpa [Option.or] using ih

theorem searchPath_resolve (e : ResolveEnv) :
    ∀ ns, (searchPath e ns).1 = (ns.find? (tryOk e)).map (resolvedPair e) := by
  intro ns
  induction ns with
  | nil => simp [searchPath]
  | cons n ns ih =>
    simp only [searchPath]
    cases hout : e.tryOut n with
    | none =>
      simp only [hout]
      rw [List.find?_cons_of_neg _ (by simp [tryOk, hout])]
      exact ih
    | some o =>
      simp only [hout]
      cases hrec : recognizes o with
      | false =>
        simp only [hrec, Bool.false_eq_true, if_false]
        rw [List.find?_cons_of_neg _ (by simp [tryOk, hout, hrec])]
        exact ih
      | true =>
        simp only [hrec, if_true]
        rw [List.find?_cons_of_pos _ (by simp [tryOk, hout, hrec])]
        simp [resolvedPair, hout]

theorem tryOverride_resolve (e : ResolveEnv) :
    (tryOverride e).1 =
      ((match e.overrideBin with
        | some p => [p]
        | none => ([] : List JStr)).find? (tryOk e)).map (resolvedPair e) := by
  unfold tryOverride
  rcases hov : e.overrideBin with _ | p
  · simp
  · cases hout : e.tryOut p with
    | none =>
      simp only [hout]
      rw [List.find?_cons_of_neg _ (by simp [tryOk, hout])]
      simp
    | some o =>
      simp only [hout]
      cases hrec : recognizes o with
      | false =>
        simp only [hrec, Bool.false_eq_true, if_false]
        rw [List.find?_cons_of_neg _ (by simp [tryOk, hout, hrec])]
        simp
      | true =>
        simp only [hrec, if_true]
        rw [List.find?_cons_of_pos _ (by simp [tryOk, hout, hrec])]
        simp [resolvedPair, hout]

/-- C9 amended: binary resolution never fails; it returns the first
candidate, in tier order, that answers the version query recognizably,
together with that candidate's version output, and otherwise falls back to
the embedded binary unconditionally. -/
theorem pick7zBinary_resolves (e : ResolveEnv) :
    (pick7zBinary e).1 = specResolve e := by
  unfold pick7zBinary specResolve validatedCandidates
  simp only [List.find?_append]
  have h1 := tryOverride_resolve e
  rcases hs1 : (tryOverride e).1 with _ | r1
  · rw [hs1] at h1
    have h1n : (match e.overrideBin with
        | some p => [p]
        | none => ([] : List JStr)).find? (tryOk e) = none := Option.map_eq_none'.mp h1.symm
    have hd := searchDirs_resolve e (candidateDirs e)
    rcases hs2 : (searchDirs e (candidateDirs e)).1 with _ | r2
    · rw [hs2] at hd
      have hdn := Option.map_eq_none'.mp hd.symm
      have hp := searchPath_resolve e (candidateNames e)
      rcases hs3 : (searchPath e (candidateNames e)).1 with _ | r3
      · rw [hs3] at hp
        have hpn := Option.map_eq_none'.mp hp.symm
        rw [h1n, hdn, hpn]
        simp [Option.or]
      · rw [hs3] at hp
        rcases Option.map_eq_some'.mp hp.symm with ⟨c, hc, hcp⟩
        rw [h1n, hdn, hc]
        simp [Option.or, ← hcp, resolvedPair]
    · rw [hs2] at hd
      rcases Option.map_eq_some'.mp hd.symm with ⟨c, hc, hcp⟩
      rw [h1n, hc]
      simp [Option.or, ← hcp, resolvedPair]
  · rw [hs1] at h1
    rcases Option.map_eq_some'.mp h1.symm with ⟨c, hc, hcp⟩
    rw [hc]
    simp [Option.or, ← hcp, resolvedPair]

/-- C9 counterexample: an environment in which no candidate in any tier
answers the version query recognizably, yet resolution returns the embedded
fallback (with empty version output) instead of raising a failure. -/
theorem pick7zBinary_no_failure_counterexample :
    noCandidateAnswers demoResolveEnv = true ∧
    (pick7zBinary demoResolveEnv).1 = (chars "7za", []) := by
  exact ⟨by decide, by decide⟩

theorem try_not_write (ev : Ev) (h : ev.isTry = true) : ev.isWrite = false := by
  cases ev <;> simp_all [Ev.isTry, Ev.isWrite]

theorem zip_foldl_try (tr : List Ev) (st : Option (List JStr))
    (h : ∀ ev ∈ tr, ev.isTry = true) : tr.foldl zipStep st = st := by
  induction tr generalizing st with
  | nil => rfl
  | cons ev tr ih =>
    have hev := h ev (List.mem_cons_self _ _)
    cases ev with
    | tryCmdE b =>
      rw [List.foldl_cons]
      exact ih st (fun e he => h e (List.mem_cons_of_mem _ he))
    | runE b args ec => simp [Ev.isTry] at hev
    | mkdtempE r => simp [Ev.isTry] at hev
    | mkdirE p => simp [Ev.isTry] at hev
    | writeFileE p => simp [Ev.isTry] at hev
    | rmrfE p => simp [Ev.isTry] at hev

theorem zipStep_mkdtempEv (st : Option (List JStr)) (r : JStr) :
    zipStep st (Ev.mkdtempE r) = st := rfl

theorem zipStep_mkdirEv (st : Option (List JStr)) (p : JStr) :
    zipStep st (Ev.mkdirE p) = st := rfl

theorem zipStep_writeEv (st : Option (List JStr)) (p : JStr) :
    zipStep st (Ev.writeFileE p) = st := rfl

theorem zipStep_rmrfEv (st : Option (List JStr)) (p : JStr) :
    zipStep st (Ev.rmrfE p) = st := rfl

theorem zipStep_listCmd (st : Option (List JStr)) (b : JStr) (rest : List JStr) (ec : Int) :
    zipStep st (Ev.runE b (chars "l" :: rest) ec) = st := rfl

theorem zipStep_extractCmd (st : Option (List JStr)) (b : JStr) (rest : List JStr) (ec : Int) :
    zipStep st (Ev.runE b (chars "x" :: rest) ec) = st := rfl

theorem zipStep_delCmd (es : List JStr) (b oz name : JStr) (ec : Int) :
    zipStep (some es) (Ev.runE b [chars "d", oz, name] ec) =
      some (es.filter (fun e => e ≠ name)) := rfl

theorem zipStep_pack1 (st : Option (List JStr)) (b : JStr) (coreNum : Nat)
    (outZip : JStr) (entries : List JStr) (h : outZip.head? ≠ some '-') :
    zipStep st (Ev.runE b (packArgs1 coreNum outZip entries) 0) = some entries := by
  have hnorm : packArgs1 coreNum outZip entries =
      chars "a" :: chars "-tzip" :: chars "-mx=7" :: mmtArg coreNum :: chars "-mtm=on" ::
        chars "-mtc=on" :: chars "-mta=on" :: outZip :: entries := by
    simp [packArgs1]
  rw [hnorm]
  unfold zipStep
  dsimp only
  rw [if_pos rfl, if_pos rfl]
  rw [show List.dropWhile (fun s : JStr => decide (List.head? s = some '-'))
      (chars "-tzip" :: chars "-mx=7" :: mmtArg coreNum :: chars "-mtm=on" ::
        chars "-mtc=on" :: chars "-mta=on" :: outZip :: entries) =
      List.dropWhile (fun s : JStr => decide (List.head? s = some '-'))
        (outZip :: entries) from rfl]
  rw [List.dropWhile_cons, if_neg (by rw [decide_eq_false h]; exact Bool.false_ne_true)]
  rfl

/-- C4: a conversion whose extracted tree yields zero entries writes exactly
one placeholder file, packs only the placeholder, issues one delete-entry
command against it whose exit status is not constrained, succeeds, and under
the conforming-tool interpretation the final zip entry list is empty (zero
files, no placeholder). -/
theorem convert_zero_entries_placeholder (env : ConvertEnv) (fp : JStr) (op : Option JStr)
    (h1 : (trimWs fp).isEmpty = false)
    (h2 : env.statIsFile = true)
    (h3 : lowerStr (extnameOf fp) = chars ".7z")
    (hp1 : (probeClassify (env.runRes [chars "l", chars "-slt", fp]).exitCode
        (env.runRes [chars "l", chars "-slt", fp]).all).isEncrypted = false)
    (hp2 : (probeClassify (env.runRes [chars "l", chars "-slt", fp]).exitCode
        (env.runRes [chars "l", chars "-slt", fp]).all).isType7z = true)
    (hp3 : (probeClassify (env.runRes [chars "l", chars "-slt", fp]).exitCode
        (env.runRes [chars "l", chars "-slt", fp]).all).looksInvalid = false)
    (hp4 : (probeClassify (env.runRes [chars "l", chars "-slt", fp]).exitCode
        (env.runRes [chars "l", chars "-slt", fp]).all).exitCode = 0)
    (hxt : (env.runRes [chars "x", fp, chars "-o" ++ (env.tmpRoot ++ chars "/w"),
        chars "-y", chars "-bd"]).exitCode = 0)
    (hentries : listAllRelativeEntries (.dir env.extractTree) = [])
    (hpack : (env.runRes (packArgs1 env.coreNum
        (computeOutZip fp (lowerStr (extnameOf fp)) op) [placeholderName])).exitCode = 0)
    (hout : env.outIsFile = true)
    (hoz : (computeOutZip fp (lowerStr (extnameOf fp)) op).head? ≠ some '-') :
    (convert7zToZip env fp op).1 =
      .ok (computeOutZip fp (lowerStr (extnameOf fp)) op) ∧
    (convert7zToZip env fp op).2.countP Ev.isWrite = 1 ∧
    Ev.writeFileE ((env.tmpRoot ++ chars "/w") ++ '/' :: placeholderName) ∈
      (convert7zToZip env fp op).2 ∧
    Ev.runE (pick7zBinary env.renv).1.1
      (packArgs1 env.coreNum (computeOutZip fp (lowerStr (extnameOf fp)) op)
        [placeholderName]) 0 ∈ (convert7zToZip env fp op).2 ∧
    Ev.runE (pick7zBinary env.renv).1.1
      [chars "d", computeOutZip fp (lowerStr (extnameOf fp)) op, placeholderName]
      (env.runRes [chars "d", computeOutZip fp (lowerStr (extnameOf fp)) op,
        placeholderName]).exitCode ∈ (convert7zToZip env fp op).2 ∧
    zipStateAfter (convert7zToZip env fp op).2 = some [] := by
  set bin := (pick7zBinary env.renv).1.1 with hbin
  set version := (pick7zBinary env.renv).1.2 with hversion
  set outZip := computeOutZip fp (lowerStr (extnameOf fp)) op with houtZip
  set workDir := env.tmpRoot ++ chars "/w" with hworkDir
  set pickTr := (pick7zBinary env.renv).2 with hpickTr
  have hec : extractClassify (env.runRes [chars "x", fp, chars "-o" ++ workDir,
      chars "-y", chars "-bd"]) version = .ok () := by
    unfold extractClassify
    rw [if_pos hxt]
  have hpk : addZipWith7z env.runRes env.coreNum bin outZip [placeholderName] =
      (.ok (), [Ev.runE bin (packArgs1 env.coreNum outZip [placeholderName])
        (env.runRes (packArgs1 env.coreNum outZip [placeholderName])).exitCode]) := by
    unfold addZipWith7z
    rw [if_pos hpack]
  have hbody : convertBody env bin version fp outZip workDir =
      (.ok outZip,
       [Ev.runE bin [chars "x", fp, chars "-o" ++ workDir, chars "-y", chars "-bd"]
          (env.runRes [chars "x", fp, chars "-o" ++ workDir, chars "-y", chars "-bd"]).exitCode,
        Ev.writeFileE (workDir ++ '/' :: placeholderName),
        Ev.runE bin (packArgs1 env.coreNum outZip [placeholderName])
          (env.runRes (packArgs1 env.coreNum outZip [placeholderName])).exitCode,
        Ev.runE bin [chars "d", outZip, placeholderName]
          (env.runRes [chars "d", outZip, placeholderName]).exitCode,
        Ev.runE bin [chars "l", chars "-slt", outZip]
          (env.runRes [chars "l", chars "-slt", outZip]).exitCode]) := by
    unfold convertBody
    dsimp only
    rw [hec]
    dsimp only
    rw [hentries]
    simp only [List.isEmpty_nil, if_true]
    rw [hpk]
    dsimp only
    unfold finishVerify
    rw [if_pos hout]
    rfl
  have hconv : convert7zToZip env fp op =
      (.ok outZip,
       pickTr ++
        [Ev.runE bin [chars "l", chars "-slt", fp]
           (env.runRes [chars "l", chars "-slt", fp]).exitCode,
         Ev.mkdtempE env.tmpRoot, Ev.mkdirE workDir,
         Ev.runE bin [chars "x", fp, chars "-o" ++ workDir, chars "-y", chars "-bd"]
           (env.runRes [chars "x", fp, chars "-o" ++ workDir, chars "-y", chars "-bd"]).exitCode,
         Ev.writeFileE (workDir ++ '/' :: placeholderName),
         Ev.runE bin (packArgs1 env.coreNum outZip [placeholderName])
           (env.runRes (packArgs1 env.coreNum outZip [placeholderName])).exitCode,
         Ev.runE bin [chars "d", outZip, placeholderName]
           (env.runRes [chars "d", outZip, placeholderName]).exitCode,
         Ev.runE bin [chars "l", chars "-slt", outZip]
           (env.runRes [chars "l", chars "-slt", outZip]).exitCode,
         Ev.rmrfE env.tmpRoot]) := by
    unfold convert7zToZip
    rw [if_neg (by simp [h1])]
    simp only [h2, Bool.not_true, Bool.false_eq_true, if_false]
    rw [if_neg (by simp [h3])]
    rw [if_neg (by simp [hp1])]
    rw [if_neg (by simp [hp2, hp3, hp4])]
    rw [hbody]
    dsimp only
    simp [List.append_assoc]
  rw [hconv]
  have hPickWrite : pickTr.countP Ev.isWrite = 0 := by
    refine List.countP_eq_zero.mpr ?_
    intro ev hm hw
    have := try_not_write ev (pick7zBinary_events env.renv ev hm)
    rw [this] at hw
    exact Bool.false_ne_true hw
  refine ⟨rfl, ?_, ?_, ?_, ?_, ?_⟩
  · rw [List.countP_append, hPickWrite]
    simp [List.countP_cons, Ev.isWrite]
  · exact List.mem_append_right _ (by simp)
  · refine List.mem_append_right _ ?_
    rw [hpack]
    simp
  · exact List.mem_append_right _ (by simp)
  · unfold zipStateAfter
    rw [List.foldl_append, zip_foldl_try pickTr none (pick7zBinary_events env.renv)]
    rw [hpack]
    simp only [List.foldl_cons, List.foldl_nil, zipStep_listCmd, zipStep_extractCmd,
      zipStep_mkdtempEv, zipStep_mkdirEv, zipStep_writeEv, zipStep_rmrfEv]
    rw [zipStep_pack1 none bin env.coreNum outZip [placeholderName] hoz]
    rw [zipStep_delCmd]
    rfl

/-- C4 witness. -/
theorem convert_zero_entries_placeholder_witness :
    listAllRelativeEntries (.dir demoEnv.extractTree) = [] ∧
    (convert7zToZip demoEnv (chars "a.7z") none).1 =
      .ok (computeOutZip (chars "a.7z") (lowerStr (extnameOf (chars "a.7z"))) none) ∧
    zipStateAfter (convert7zToZip demoEnv (chars "a.7z") none).2 = some [] := by
  have h := convert_zero_entries_placeholder demoEnv (chars "a.7z") none (by decide) (by decide)
    (by decide) (by decide) (by decide) (by decide) (by decide) (by decide) (by decide)
    (by decide) (by decide) (by decide)
  exact ⟨by decide, h.1, h.2.2.2.2.2⟩

theorem joinRel_eq_qSlash (q n : JStr) : joinRel q n = qSlash q ++ n := by
  unfold joinRel qSlash
  by_cases h : q = []
  · simp [h]
  · simp [h]

theorem joinRel_ne_nil (q n : JStr) (hn : n ≠ []) : joinRel q n ≠ [] := by
  rw [joinRel_eq_qSlash]
  intro hc
  rcases List.append_eq_nil.mp hc with ⟨-, h2⟩
  exact hn h2

theorem goodName_spec (n : JStr) (h : goodName n = true) :
    n ≠ [] ∧ ∀ c ∈ n, c ≠ '/' := by
  unfold goodName at h
  simp only [Bool.and_eq_true] at h
  rcases h with ⟨h1, h2⟩
  constructor
  · intro hc
    rw [hc] at h1
    simp at h1
  · intro c hc hceq
    subst hceq
    rw [Bool.not_eq_true', List.contains, List.elem_eq_mem, decide_eq_false_iff_not] at h2
    exact h2 hc

theorem segNC (n : JStr) :
    ∀ m u v : JStr, (∀ c ∈ n, c ≠ '/') → (∀ c ∈ m, c ≠ '/') →
      (u = [] ∨ ∃ w, u = '/' :: w) → (v = [] ∨ ∃ w, v = '/' :: w) →
      n ++ u = m ++ v → n = m ∧ u = v := by
  induction n with
  | nil =>
    intro m u v _ hm hu hv heq
    simp only [List.nil_append] at heq
    cases m with
    | nil => simp only [List.nil_append] at heq; exact ⟨rfl, heq⟩
    | cons b m =>
      exfalso
      rcases hu with rfl | ⟨w, rfl⟩
      · exact List.noConfusion heq
      · simp only [List.cons_append, List.cons.injEq] at heq
        exact hm b (List.mem_cons_self _ _) heq.1.symm
  | cons a n ih =>
    intro m u v hn hm hu hv heq
    cases m with
    | nil =>
      exfalso
      simp only [List.nil_append, List.cons_append] at heq
      rcases hv with rfl | ⟨w, rfl⟩
      · exact List.noConfusion heq
      · simp only [List.cons.injEq] at heq
        exact hn a (List.mem_cons_self _ _) heq.1
    | cons b m =>
      simp only [List.cons_append, List.cons.injEq] at heq
      rcases heq with ⟨rfl, heq⟩
      have := ih m u v (fun c hc => hn c (List.mem_cons_of_mem _ hc))
        (fun c hc => hm c (List.mem_cons_of_mem _ hc)) hu hv heq
      exact ⟨by rw [this.1], this.2⟩

theorem enc_one (ps : List JStr) :
    ∀ q, q ≠ [] → encAt q ps = q ++ segsTail ps := by
  induction ps with
  | nil => intro q _; simp [encAt, segsTail]
  | cons a ps ih =>
    intro q hq
    unfold encAt at ih ⊢
    rw [List.foldl_cons]
    have hja : joinRel q a = q ++ '/' :: a := by
      rw [joinRel_eq_qSlash]
      unfold qSlash
      simp [hq]
    rw [hja]
    rw [ih (q ++ '/' :: a) (by simp)]
    simp [segsTail, List.flatMap_cons]

theorem joinSegs_eq_segsTail (a : JStr) (ps : List JStr) :
    joinSegs (a :: ps) = a ++ segsTail ps := by
  induction ps generalizing a with
  | nil => simp [joinSegs, segsTail]
  | cons b ps ih =>
    show joinSegs (a :: b :: ps) = _
    unfold joinSegs
    rw [ih b]
    simp [segsTail, List.flatMap_cons]

theorem enc_root (a : JStr) (ps : List JStr) (ha : a ≠ []) :
    encAt [] (a :: ps) = joinSegs (a :: ps) := by
  unfold encAt
  rw [List.foldl_cons]
  have h0 : joinRel [] a = a := by simp [joinRel]
  rw [h0]
  rw [show List.foldl joinRel a ps = encAt a ps from rfl]
  rw [enc_one ps a ha, joinSegs_eq_segsTail]

theorem enc_extends (ps : List JStr) (q : JStr) (hq : q ≠ []) :
    ∃ w, encAt q ps = q ++ w ∧ (w = [] ∨ ∃ w2, w = '/' :: w2) := by
  cases ps with
  | nil => exact ⟨[], by simp [encAt], Or.inl rfl⟩
  | cons a ps =>
    refine ⟨segsTail (a :: ps), enc_one _ q hq, Or.inr ?_⟩
    exact ⟨a ++ segsTail ps, by simp [segsTail, List.flatMap_cons]⟩

theorem lookupE_hasName : ∀ (cs : FsEnts) (n : JStr) (t : FsTree),
    lookupE cs n = some t → hasName cs n = true
  | .nil, n, t, h => by simp [lookupE] at h
  | .cons m t' rest, n, t, h => by
    unfold lookupE at h
    unfold hasName
    by_cases hm : m = n
    · simp [hm]
    · rw [if_neg hm] at h
      simp [lookupE_hasName rest n t h]

theorem wfE_lookup : ∀ (cs : FsEnts) (n : JStr) (t : FsTree),
    wfE cs = true → lookupE cs n = some t → goodName n = true ∧ wfT t = true
  | .nil, n, t, _, h => by simp [lookupE] at h
  | .cons m t' rest, n, t, hwf, h => by
    unfold wfE at hwf
    simp only [Bool.and_eq_true] at hwf
    rcases hwf with ⟨⟨⟨hg, -⟩, hwt⟩, hwr⟩
    unfold lookupE at h
    by_cases hm : m = n
    · rw [if_pos hm] at h
      rcases Option.some.inj h with rfl
      rw [← hm]
      exact ⟨hg, hwt⟩
    · rw [if_neg hm] at h
      exact wfE_lookup rest n t hwr h

mutual
theorem extT : ∀ (t : FsTree) (q : JStr), q ≠ [] → wfT t = true →
    ∀ e ∈ walkT q t, e = q ∨ ∃ v, e = q ++ '/' :: v
  | .file, q, _, _, e, he => by
    unfold walkT at he
    rcases List.mem_singleton.mp he with rfl
    exact Or.inl rfl
  | .dir cs, q, hq, hwf, e, he => by
    unfold walkT at he
    rw [if_neg hq] at he
    rcases List.mem_append.mp he with he | he
    · rcases List.mem_singleton.mp he with rfl
      exact Or.inr ⟨[], rfl⟩
    · rcases extE cs q hwf e he with ⟨n, t', u, hlk, hform, hu⟩
      right
      rw [joinRel_eq_qSlash] at hform
      unfold qSlash at hform
      rw [if_neg hq] at hform
      exact ⟨n ++ u, by simpa using hform⟩
theorem extE : ∀ (cs : FsEnts) (q : JStr), wfE cs = true →
    ∀ e ∈ walkE q cs, ∃ n t' u, lookupE cs n = some t' ∧ e = joinRel q n ++ u ∧
      (u = [] ∨ ∃ v, u = '/' :: v)
  | .nil, q, _, e, he => by simp [walkE] at he
  | .cons n t rest, q, hwf, e, he => by
    unfold wfE at hwf
    simp only [Bool.and_eq_true] at hwf
    rcases hwf with ⟨⟨⟨hg, hnm⟩, hwt⟩, hwr⟩
    unfold walkE at he
    rcases List.mem_append.mp he with he | he
    · have hq' : joinRel q n ≠ [] := joinRel_ne_nil q n (goodName_spec n hg).1
      rcases extT t (joinRel q n) hq' hwt e he with h | ⟨v, h⟩
      · exact ⟨n, t, [], by simp [lookupE], by simpa using h, Or.inl rfl⟩
      · exact ⟨n, t, '/' :: v, by simp [lookupE], by simpa using h, Or.inr ⟨v, rfl⟩⟩
    · rcases extE rest q hwr e he with ⟨m, t', u, hlk, hform, hu⟩
      have hmn : n ≠ m := by
        intro hc
        subst hc
        rw [Bool.not_eq_true'] at hnm
        rw [lookupE_hasName rest n t' hlk] at hnm
        exact absurd hnm (by simp)
      refine ⟨m, t', u, ?_, hform, hu⟩
      unfold lookupE
      rw [if_neg hmn]
      exact hlk
end

theorem child_form (q n u1 : JStr) (e : JStr) (h : e = joinRel q n ++ u1) :
    e = qSlash q ++ (n ++ u1) := by
  rw [h, joinRel_eq_qSlash, List.append_assoc]

mutual
theorem nodupT : ∀ (t : FsTree) (q : JStr), q ≠ [] → wfT t = true → (walkT q t).Nodup
  | .file, q, _, _ => by simp [walkT]
  | .dir cs, q, hq, hwf => by
    unfold walkT
    rw [if_neg hq]
    rw [List.singleton_append, List.nodup_cons]
    constructor
    · intro hmem
      rcases extE cs q hwf _ hmem with ⟨n, t', u, hlk, hform, hu⟩
      have hgood := (wfE_lookup cs n t' hwf hlk).1
      have hne := (goodName_spec n hgood).1
      have hform2 := child_form q n u _ hform
      unfold qSlash at hform2
      rw [if_neg hq] at hform2
      rw [List.append_assoc] at hform2
      have h3 := List.append_cancel_left hform2
      rw [show (['/'] : JStr) ++ (n ++ u) = '/' :: (n ++ u) from rfl] at h3
      have h4 : ([] : JStr) = n ++ u := (List.cons.inj h3).2
      rcases List.append_eq_nil.mp h4.symm with ⟨h1, -⟩
      exact hne h1
    · exact nodupE cs q hwf
theorem nodupE : ∀ (cs : FsEnts) (q : JStr), wfE cs = true → (walkE q cs).Nodup
  | .nil, _, _ => by simp [walkE]
  | .cons n t rest, q, hwf => by
    unfold wfE at hwf
    simp only [Bool.and_eq_true] at hwf
    rcases hwf with ⟨⟨⟨hg, hnm⟩, hwt⟩, hwr⟩
    unfold walkE
    rw [List.nodup_append]
    refine ⟨nodupT t (joinRel q n) (joinRel_ne_nil q n (goodName_spec n hg).1) hwt,
      nodupE rest q hwr, ?_⟩
    intro e he1 he2
    have hq' : joinRel q n ≠ [] := joinRel_ne_nil q n (goodName_spec n hg).1
    have hform1 : ∃ u1, e = joinRel q n ++ u1 ∧ (u1 = [] ∨ ∃ v, u1 = '/' :: v) := by
      rcases extT t (joinRel q n) hq' hwt e he1 with h | ⟨v, h⟩
      · exact ⟨[], by simpa using h, Or.inl rfl⟩
      · exact ⟨'/' :: v, h, Or.inr ⟨v, rfl⟩⟩
    rcases hform1 with ⟨u1, hf1, hu1⟩
    rcases extE rest q hwr e he2 with ⟨m, t', u2, hlk, hf2, hu2⟩
    have hgm := (wfE_lookup rest m t' hwr hlk).1
    have hmn : n ≠ m := by
      intro hc
      subst hc
      rw [Bool.not_eq_true'] at hnm
      rw [lookupE_hasName rest n t' hlk] at hnm
      exact absurd hnm (by simp)
    have heq : n ++ u1 = m ++ u2 := by
      have e1 := child_form q n u1 e hf1
      have e2 := child_form q m u2 e hf2
      rw [e1] at e2
      exact List.append_cancel_left e2
    have := segNC n m u1 u2 (goodName_spec n hg).2 (goodName_spec m hgm).2 hu1 hu2 heq
    exact hmn this.1
end

theorem nodeAt_cons_eq (n : JStr) (t : FsTree) (rest : FsEnts) (p : List JStr) :
    nodeAt (.dir (.cons n t rest)) (n :: p) = nodeAt t p := by
  have hlk : lookupE (.cons n t rest) n = some t := by
    show (if n = n then some t else lookupE rest n) = some t
    rw [if_pos rfl]
  rw [show nodeAt (FsTree.dir (.cons n t rest)) (n :: p) =
      (match lookupE (.cons n t rest) n with
       | some t' => nodeAt t' p
       | none => none) from rfl, hlk]

theorem nodeAt_cons_ne (n m : JStr) (t : FsTree) (rest : FsEnts) (p : List JStr)
    (h : n ≠ m) :
    nodeAt (.dir (.cons n t rest)) (m :: p) = nodeAt (.dir rest) (m :: p) := by
  have hlk : lookupE (.cons n t rest) m = lookupE rest m := by
    show (if n = m then some t else lookupE rest m) = lookupE rest m
    rw [if_neg h]
  rw [show nodeAt (FsTree.dir (.cons n t rest)) (m :: p) =
      (match lookupE (.cons n t rest) m with
       | some t' => nodeAt t' p
       | none => none) from rfl, hlk]
  rw [show nodeAt (FsTree.dir rest) (m :: p) =
      (match lookupE rest m with
       | some t' => nodeAt t' p
       | none => none) from rfl]

theorem nodeAt_dir_cons_elim (cs : FsEnts) (m : JStr) (p : List JStr) (x : FsTree)
    (h : nodeAt (.dir cs) (m :: p) = some x) :
    ∃ t', lookupE cs m = some t' ∧ nodeAt t' p = some x := by
  unfold nodeAt at h
  cases hlk : lookupE cs m with
  | none => rw [hlk] at h; exact absurd h (by simp)
  | some t' => rw [hlk] at h; exact ⟨t', rfl, h⟩

theorem encAt_cons (q n : JStr) (p : List JStr) :
    encAt q (n :: p) = encAt (joinRel q n) p := rfl

mutual
theorem memT : ∀ (t : FsTree) (q : JStr), q ≠ [] → wfT t = true → ∀ e,
    (e ∈ walkT q t ↔
      (∃ p sub, nodeAt t p = some (.dir sub) ∧ e = encAt q p ++ ['/']) ∨
      (∃ p, nodeAt t p = some .file ∧ e = encAt q p))
  | .file, q, hq, _, e => by
    unfold walkT
    rw [List.mem_singleton]
    constructor
    · rintro rfl
      exact Or.inr ⟨[], rfl, by simp [encAt]⟩
    · rintro (⟨p, sub, hp, -⟩ | ⟨p, hp, he⟩)
      · cases p with
        | nil => simp [nodeAt] at hp
        | cons m p' => simp [nodeAt] at hp
      · cases p with
        | nil => simpa [encAt] using he
        | cons m p' => simp [nodeAt] at hp
  | .dir cs, q, hq, hwf, e => by
    unfold walkT
    rw [if_neg hq, List.singleton_append, List.mem_cons]
    rw [memE cs q hwf e]
    constructor
    · rintro (rfl | (⟨p, sub, hpne, hp, he⟩ | ⟨p, hp, he⟩))
      · exact Or.inl ⟨[], cs, rfl, by simp [encAt]⟩
      · exact Or.inl ⟨p, sub, hp, he⟩
      · exact Or.inr ⟨p, hp, he⟩
    · rintro (⟨p, sub, hp, he⟩ | ⟨p, hp, he⟩)
      · cases p with
        | nil =>
          left
          rcases FsTree.dir.inj (Option.some.inj hp) with rfl
          simpa [encAt] using he
        | cons m p' =>
          right; left
          exact ⟨m :: p', sub, by simp, hp, he⟩
      · cases p with
        | nil => simp [nodeAt] at hp
        | cons m p' =>
          right; right
          exact ⟨m :: p', hp, he⟩
theorem memE : ∀ (cs : FsEnts) (q : JStr), wfE cs = true → ∀ e,
    (e ∈ walkE q cs ↔
      (∃ p sub, p ≠ [] ∧ nodeAt (.dir cs) p = some (.dir sub) ∧ e = encAt q p ++ ['/']) ∨
      (∃ p, nodeAt (.dir cs) p = some .file ∧ e = encAt q p))
  | .nil, q, _, e => by
    unfold walkE
    simp only [List.not_mem_nil, false_iff]
    rintro (⟨p, sub, hpne, hp, -⟩ | ⟨p, hp, -⟩)
    · cases p with
      | nil => exact hpne rfl
      | cons m p' =>
        rcases nodeAt_dir_cons_elim _ _ _ _ hp with ⟨t', hlk, -⟩
        simp [lookupE] at hlk
    · cases p with
      | nil => simp [nodeAt] at hp
      | cons m p' =>
        rcases nodeAt_dir_cons_elim _ _ _ _ hp with ⟨t', hlk, -⟩
        simp [lookupE] at hlk
  | .cons n t rest, q, hwf, e => by
    have hwf' := hwf
    unfold wfE at hwf'
    simp only [Bool.and_eq_true] at hwf'
    rcases hwf' with ⟨⟨⟨hg, hnm⟩, hwt⟩, hwr⟩
    have hq' : joinRel q n ≠ [] := joinRel_ne_nil q n (goodName_spec n hg).1
    unfold walkE
    rw [List.mem_append]
    rw [memT t (joinRel q n) hq' hwt e, memE rest q hwr e]
    constructor
    · rintro ((⟨p, sub, hp, he⟩ | ⟨p, hp, he⟩) | (⟨p, sub, hpne, hp, he⟩ | ⟨p, hp, he⟩))
      · exact Or.inl ⟨n :: p, sub, by simp, by rw [nodeAt_cons_eq]; exact hp,
          by rw [encAt_cons]; exact he⟩
      · exact Or.inr ⟨n :: p, by rw [nodeAt_cons_eq]; exact hp,
          by rw [encAt_cons]; exact he⟩
      · rcases List.exists_cons_of_ne_nil hpne with ⟨m, p', rfl⟩
        rcases nodeAt_dir_cons_elim _ _ _ _ hp with ⟨t', hlk, -⟩
        have hmn : n ≠ m := by
          intro hc
          subst hc
          rw [Bool.not_eq_true'] at hnm
          rw [lookupE_hasName rest n t' hlk] at hnm
          exact absurd hnm (by simp)
        exact Or.inl ⟨m :: p', sub, by simp, by rw [nodeAt_cons_ne _ _ _ _ _ hmn]; exact hp, he⟩
      · cases p with
        | nil => simp [nodeAt] at hp
        | cons m p' =>
          rcases nodeAt_dir_cons_elim _ _ _ _ hp with ⟨t', hlk, -⟩
          have hmn : n ≠ m := by
            intro hc
            subst hc
            rw [Bool.not_eq_true'] at hnm
            rw [lookupE_hasName rest n t' hlk] at hnm
            exact absurd hnm (by simp)
          exact Or.inr ⟨m :: p', by rw [nodeAt_cons_ne _ _ _ _ _ hmn]; exact hp, he⟩
    · rintro (⟨p, sub, hpne, hp, he⟩ | ⟨p, hp, he⟩)
      · rcases List.exists_cons_of_ne_nil hpne with ⟨m, p', rfl⟩
        by_cases hmn : n = m
        · subst hmn
          rw [nodeAt_cons_eq] at hp
          exact Or.inl (Or.inl ⟨p', sub, hp, by rw [← encAt_cons]; exact he⟩)
        · rw [nodeAt_cons_ne _ _ _ _ _ hmn] at hp
          exact Or.inr (Or.inl ⟨m :: p', sub, by simp, hp, he⟩)
      · cases p with
        | nil => simp [nodeAt] at hp
        | cons m p' =>
          by_cases hmn : n = m
          · subst hmn
            rw [nodeAt_cons_eq] at hp
            exact Or.inl (Or.inr ⟨p', hp, by rw [← encAt_cons]; exact he⟩)
          · rw [nodeAt_cons_ne _ _ _ _ _ hmn] at hp
            exact Or.inr (Or.inr ⟨m :: p', hp, he⟩)
end

theorem inside_shape (q' : JStr) (p' : List JStr) (u : JStr) (hq' : q' ≠ [])
    (hu : u ≠ []) :
    ∃ w2, encAt q' p' ++ '/' :: u = q' ++ '/' :: w2 ∧ w2 ≠ [] := by
  rcases enc_extends p' q' hq' with ⟨w, hw, hcase⟩
  rcases hcase with rfl | ⟨wh, rfl⟩
  · exact ⟨u, by simp [hw], hu⟩
  · exact ⟨wh ++ '/' :: u, by simp [hw], by simp⟩

mutual
theorem ordT : ∀ (t : FsTree) (q : JStr), q ≠ [] → wfT t = true →
    ∀ p sub, nodeAt t p = some (.dir sub) →
    ∃ l1 l2, walkT q t = l1 ++ (encAt q p ++ ['/']) :: l2 ∧
      ∀ e ∈ walkT q t, (∃ u, u ≠ [] ∧ e = encAt q p ++ '/' :: u) → e ∈ l2
  | .file, q, hq, _, p, sub, hp => by
    exfalso
    cases p with
    | nil => simp [nodeAt] at hp
    | cons m p' => simp [nodeAt] at hp
  | .dir cs, q, hq, hwf, p, sub, hp => by
    cases p with
    | nil =>
      refine ⟨[], walkE q cs, ?_, ?_⟩
      · unfold walkT
        rw [if_neg hq]
        simp [encAt]
      · intro e he hin
        rcases hin with ⟨u, hu, he2⟩
        unfold walkT at he
        rw [if_neg hq, List.singleton_append] at he
        rcases List.mem_cons.mp he with rfl | he
        · exfalso
          have he3 : q ++ ['/'] = q ++ '/' :: u := by simpa [encAt] using he2
          have h3 := List.append_cancel_left he3
          exact hu ((List.cons.inj h3).2).symm
        · exact he
    | cons m p' =>
      rcases ordE cs q hwf (m :: p') sub (by simp) hp with ⟨l1, l2, hdec, hprop⟩
      refine ⟨(q ++ ['/']) :: l1, l2, ?_, ?_⟩
      · unfold walkT
        rw [if_neg hq, List.singleton_append, hdec]
        rfl
      · intro e he hin
        unfold walkT at he
        rw [if_neg hq, List.singleton_append] at he
        rcases List.mem_cons.mp he with rfl | he
        · exfalso
          rcases hin with ⟨u, hu, he2⟩
          rcases inside_shape q (m :: p') u hq hu with ⟨w2, hw, hw2ne⟩
          have he4 : q ++ ['/'] = q ++ '/' :: w2 := he2.trans hw
          have h3 := List.append_cancel_left he4
          exact hw2ne ((List.cons.inj h3).2).symm
        · exact hprop e he hin
theorem ordE : ∀ (cs : FsEnts) (q : JStr), wfE cs = true →
    ∀ p sub, p ≠ [] → nodeAt (.dir cs) p = some (.dir sub) →
    ∃ l1 l2, walkE q cs = l1 ++ (encAt q p ++ ['/']) :: l2 ∧
      ∀ e ∈ walkE q cs, (∃ u, u ≠ [] ∧ e = encAt q p ++ '/' :: u) → e ∈ l2
  | .nil, q, _, p, sub, hpne, hp => by
    exfalso
    rcases List.exists_cons_of_ne_nil hpne with ⟨m, p', rfl⟩
    rcases nodeAt_dir_cons_elim _ _ _ _ hp with ⟨t', hlk, -⟩
    simp [lookupE] at hlk
  | .cons n t rest, q, hwf, p, sub, hpne, hp => by
    have hwf' := hwf
    unfold wfE at hwf'
    simp only [Bool.and_eq_true] at hwf'
    rcases hwf' with ⟨⟨⟨hg, hnm⟩, hwt⟩, hwr⟩
    have hq' : joinRel q n ≠ [] := joinRel_ne_nil q n (goodName_spec n hg).1
    have hwalk : walkE q (.cons n t rest) = walkT (joinRel q n) t ++ walkE q rest := rfl
    rcases List.exists_cons_of_ne_nil hpne with ⟨m, p', rfl⟩
    by_cases hmn : n = m
    · subst hmn
      rw [nodeAt_cons_eq] at hp
      rcases ordT t (joinRel q n) hq' hwt p' sub hp with ⟨l1, l2, hdec, hprop⟩
      refine ⟨l1, l2 ++ walkE q rest, ?_, ?_⟩
      · rw [hwalk, hdec, encAt_cons]
        simp [List.append_assoc]
      · intro e he hin
        rw [encAt_cons] at hin
        rw [hwalk] at he
        rcases List.mem_append.mp he with he | he
        · exact List.mem_append_left _ (hprop e he hin)
        · exfalso
          rcases hin with ⟨u, hu, he2⟩
          rcases extE rest q hwr e he with ⟨m', t', u2, hlk, hf2, hu2⟩
          have hgm := (wfE_lookup rest m' t' hwr hlk).1
          have hmn' : n ≠ m' := by
            intro hc
            subst hc
            rw [Bool.not_eq_true'] at hnm
            rw [lookupE_hasName rest n t' hlk] at hnm
            exact absurd hnm (by simp)
          rcases inside_shape (joinRel q n) p' u hq' hu with ⟨w2, hw, -⟩
          have hf1 : e = joinRel q n ++ '/' :: w2 := he2.trans hw
          have heq : n ++ '/' :: w2 = m' ++ u2 := by
            have e1 := child_form q n ('/' :: w2) e hf1
            have e2 := child_form q m' u2 e hf2
            rw [e1] at e2
            exact List.append_cancel_left e2
          have := segNC n m' ('/' :: w2) u2 (goodName_spec n hg).2 (goodName_spec m' hgm).2
            (Or.inr ⟨w2, rfl⟩) hu2 heq
          exact hmn' this.1
    · rw [nodeAt_cons_ne _ _ _ _ _ hmn] at hp
      rcases ordE rest q hwr (m :: p') sub (by simp) hp with ⟨l1, l2, hdec, hprop⟩
      refine ⟨walkT (joinRel q n) t ++ l1, l2, ?_, ?_⟩
      · rw [hwalk, hdec]
        simp [List.append_assoc]
      · intro e he hin
        rw [hwalk] at he
        rcases List.mem_append.mp he with he | he
        · exfalso
          rcases hin with ⟨u, hu, he2⟩
          rcases nodeAt_dir_cons_elim _ _ _ _ hp with ⟨t'', hlk2, -⟩
          have hgm := (wfE_lookup rest m t'' hwr hlk2).1
          have hqm : joinRel q m ≠ [] := joinRel_ne_nil q m (goodName_spec m hgm).1
          have hf1 : ∃ u1, e = joinRel q n ++ u1 ∧ (u1 = [] ∨ ∃ v, u1 = '/' :: v) := by
            rcases extT t (joinRel q n) hq' hwt e he with h | ⟨v, h⟩
            · exact ⟨[], by simpa using h, Or.inl rfl⟩
            · exact ⟨'/' :: v, h, Or.inr ⟨v, rfl⟩⟩
          rcases hf1 with ⟨u1, hf1, hu1⟩
          rw [encAt_cons] at he2
          rcases inside_shape (joinRel q m) p' u hqm hu with ⟨w2, hw, -⟩
          have hf2 : e = joinRel q m ++ '/' :: w2 := he2.trans hw
          have heq : n ++ u1 = m ++ '/' :: w2 := by
            have e1 := child_form q n u1 e hf1
            have e2 := child_form q m ('/' :: w2) e hf2
            rw [e1] at e2
            exact List.append_cancel_left e2
          have := segNC n m u1 ('/' :: w2) (goodName_spec n hg).2 (goodName_spec m hgm).2
            hu1 (Or.inr ⟨w2, rfl⟩) heq
          exact hmn this.1
        · exact hprop e he hin
end

theorem listAll_dir_eq (cs : FsEnts) : listAllRelativeEntries (.dir cs) = walkE [] cs := by
  unfold listAllRelativeEntries walkT
  simp

theorem encAt_nil_eq (cs : FsEnts) (p : List JStr) (hwf : wfE cs = true) (x : FsTree)
    (hp : nodeAt (.dir cs) p = some x) (hpne : p ≠ []) : encAt [] p = joinSegs p := by
  rcases List.exists_cons_of_ne_nil hpne with ⟨m, p', rfl⟩
  rcases nodeAt_dir_cons_elim _ _ _ _ hp with ⟨t', hlk, -⟩
  exact enc_root m p' (goodName_spec m (wfE_lookup cs m t' hwf hlk).1).1

theorem nodeAt_file_ne_nil (cs : FsEnts) (p : List JStr)
    (hp : nodeAt (.dir cs) p = some .file) : p ≠ [] := by
  intro hc
  subst hc
  exact FsTree.noConfusion (Option.some.inj hp)

/-- C5: over a well-formed directory tree, the entry list contains each
non-root directory exactly once as its relative path with a trailing
separator, emitted before every entry inside that directory, each file
exactly once as its plain relative path, no entry for the root, and no
duplicates. -/
theorem listEntries_characterization (cs : FsEnts) (hwf : wfE cs = true) :
    (listAllRelativeEntries (.dir cs)).Nodup ∧
    ([] : JStr) ∉ listAllRelativeEntries (.dir cs) ∧
    (∀ e, e ∈ listAllRelativeEntries (.dir cs) ↔
      ((∃ p sub, p ≠ [] ∧ nodeAt (.dir cs) p = some (.dir sub) ∧
          e = joinSegs p ++ ['/']) ∨
       (∃ p, nodeAt (.dir cs) p = some .file ∧ e = joinSegs p))) ∧
    (∀ p sub, p ≠ [] → nodeAt (.dir cs) p = some (.dir sub) →
      ∃ l1 l2, listAllRelativeEntries (.dir cs) = l1 ++ (joinSegs p ++ ['/']) :: l2 ∧
        ∀ e ∈ listAllRelativeEntries (.dir cs),
          (∃ u, u ≠ [] ∧ e = joinSegs p ++ '/' :: u) → e ∈ l2) := by
  rw [listAll_dir_eq]
  have hmem := memE cs [] hwf
  refine ⟨nodupE cs [] hwf, ?_, ?_, ?_⟩
  · intro hm
    rcases (hmem []).mp hm with ⟨p, sub, hpne, hp, he⟩ | ⟨p, hp, he⟩
    · have := congrArg List.length he
      simp at this
    · have hpne := nodeAt_file_ne_nil cs p hp
      rw [encAt_nil_eq cs p hwf _ hp hpne] at he
      rcases List.exists_cons_of_ne_nil hpne with ⟨m, p', rfl⟩
      rcases nodeAt_dir_cons_elim _ _ _ _ hp with ⟨t', hlk, -⟩
      have hmne := (goodName_spec m (wfE_lookup cs m t' hwf hlk).1).1
      rw [joinSegs_eq_segsTail] at he
      rcases List.exists_cons_of_ne_nil hmne with ⟨c, m', rfl⟩
      exact List.noConfusion he
  · intro e
    rw [hmem e]
    constructor
    · rintro (⟨p, sub, hpne, hp, he⟩ | ⟨p, hp, he⟩)
      · rw [encAt_nil_eq cs p hwf _ hp hpne] at he
        exact Or.inl ⟨p, sub, hpne, hp, he⟩
      · have hpne := nodeAt_file_ne_nil cs p hp
        rw [encAt_nil_eq cs p hwf _ hp hpne] at he
        exact Or.inr ⟨p, hp, he⟩
    · rintro (⟨p, sub, hpne, hp, he⟩ | ⟨p, hp, he⟩)
      · rw [← encAt_nil_eq cs p hwf _ hp hpne] at he
        exact Or.inl ⟨p, sub, hpne, hp, he⟩
      · have hpne := nodeAt_file_ne_nil cs p hp
        rw [← encAt_nil_eq cs p hwf _ hp hpne] at he
        exact Or.inr ⟨p, hp, he⟩
  · intro p sub hpne hp
    rcases ordE cs [] hwf p sub hpne hp with ⟨l1, l2, hdec, hprop⟩
    rw [encAt_nil_eq cs p hwf _ hp hpne] at hdec hprop
    exact ⟨l1, l2, hdec, hprop⟩

/-- C5 witness: the tree with file `a/b.txt` and empty directory `c/`. -/
theorem listEntries_characterization_witness :
    wfE demoEnts = true ∧
    (listAllRelativeEntries (.dir demoEnts)).Nodup ∧
    ([] : JStr) ∉ listAllRelativeEntries (.dir demoEnts) :=
  ⟨by decide, (listEntries_characterization demoEnts (by decide)).1,
   (listEntries_characterization demoEnts (by decide)).2.1⟩
